import Mathlib

/-!
Verification of the traversal core of `parallel_files`
(`src/parallel_traversal.py`), against its natural-language specification.

The Python code is shallowly embedded:

* machine-level facts a syscall can report about one path are collected in
  `Meta` (the result of `lstat`, whether `os.readlink` succeeds, what
  `entry.is_dir()` / `os.path.isdir` report, the NT reparse tag, the size);
* a directory tree is the mutual inductive `Node`/`Forest`; the children
  stored at a node are what `os.scandir` on that path returns (for a link to
  a directory these are the entries reached through the link);
* fallible Python code returns `Except PyErr`; `os._exit` is a terminal
  state of a small-step process relation;
* the two schedulers are modelled as generators of `Task` lists; a task
  records its path, whether it runs `dir_func` or `file_func`, and the paths
  of the futures its `after_futures_done` wrapper waits on.  Timing of a
  concurrent run is an `ExecTimes` valuation constrained by `ValidExec`;
* strings are `List Char`; `wcwidth` is restricted to printable,
  non-combining characters (East-Asian wide ranges count 2, others 1);
* Python float arithmetic in `pretty_time` is modelled over `ℚ`, with
  `format(x, '.Nf')` as decimal round-half-to-even (exact for the inputs
  used in the theorems below, which are far from representation ties).
-/

namespace ParallelFiles

/-- Python exceptions distinguished by the embedded code: the `OSError`
variants a syscall can raise, and the `ValueError` that
`ReparseTag(data_buffer.ReparseTag)` raises in `get_reparse_info`
(src/reparse_points.py, line 261) for a tag value outside the enum. -/
inductive PyErr where
  | fileNotFound
  | permissionDenied
  | otherOSError
  | valueError
deriving DecidableEq, Repr

/-! ### `stat` module constants (file-type field of `st_mode`) -/

def S_IFMT : Nat := 0o170000

def S_IFDIR : Nat := 0o040000

def S_IFCHR : Nat := 0o020000

def S_IFBLK : Nat := 0o060000

def S_IFREG : Nat := 0o100000

def S_IFIFO : Nat := 0o010000

def S_IFLNK : Nat := 0o120000

def S_IFSOCK : Nat := 0o140000

def S_ISLNK (mode : Nat) : Bool := mode &&& S_IFMT == S_IFLNK

def S_ISDIR (mode : Nat) : Bool := mode &&& S_IFMT == S_IFDIR

def S_ISREG (mode : Nat) : Bool := mode &&& S_IFMT == S_IFREG

def S_ISBLK (mode : Nat) : Bool := mode &&& S_IFMT == S_IFBLK

def S_ISCHR (mode : Nat) : Bool := mode &&& S_IFMT == S_IFCHR

def S_ISFIFO (mode : Nat) : Bool := mode &&& S_IFMT == S_IFIFO

def S_ISSOCK (mode : Nat) : Bool := mode &&& S_IFMT == S_IFSOCK

/-! ### Reparse tags used by `FileType.from_path` (src/reparse_points.py) -/

def IO_REPARSE_TAG_LX_SYMLINK : Nat := 0xA000001D

def IO_REPARSE_TAG_DEDUP : Nat := 0x80000013

def IO_REPARSE_TAG_MOUNT_POINT : Nat := 0xA0000003

/-- The value set of the `ReparseTag` enum (src/reparse_points.py, lines
18-72).  `ReparseTag(value)` raises `ValueError` for a value outside this
list. -/
def reparseTagValues : List Nat :=
  [0x00000000, 0x00000001, 0x00000002, 0xA0000003, 0xC0000004, 0x80000005,
   0x80000006, 0x80000007, 0x80000008, 0x80000009, 0x8000000A, 0x8000000B,
   0xA000000C, 0xA0000010, 0x80000012, 0x80000013, 0xC0000014, 0x80000014,
   0x80000015, 0x80000016, 0x80000017, 0x80000018, 0x90001018, 0xA0000019,
   0x9000001A, 0x9000101A, 0x9000201A, 0x9000301A, 0x9000401A, 0x9000501A,
   0x9000601A, 0x9000701A, 0x9000801A, 0x9000901A, 0x9000A01A, 0x9000B01A,
   0x9000C01A, 0x9000D01A, 0x9000E01A, 0x9000F01A, 0x8000001B, 0x9000001C,
   0xA000001D, 0x8000001E, 0xA000001F, 0x80000020, 0x80000021, 0xA0000022,
   0x80000023, 0x80000024, 0x80000025, 0x80000026, 0xA0000027, 0xA0001027]

/-- Whether `ReparseTag(tag)` succeeds, i.e. `tag` is a member value of the
enum. -/
def reparseTagKnown (tag : Nat) : Bool := reparseTagValues.contains tag

/-- The `FileType` enum of src/parallel_traversal.py, lines 76-85. -/
inductive FileType where
  | NONEXISTENT
  | FILE
  | DIRECTORY
  | SYMLINK
  | WSL_SYMLINK
  | JUNCTION
  | DEVICE
  | UNKNOWN
deriving DecidableEq, Repr

deriving instance DecidableEq for Except

/-- Link-level facts the OS can report about one path.  `lstat` is the
outcome of `path.lstat().st_mode` (line 91); `readlink_ok` is whether
`os.readlink(path)` succeeds (lines 52 and 97); `is_dir_follow` is what
`entry.is_dir()` / `os.path.isdir` report (these follow links, lines 37,
306, 332); `reparse_tag` is the NT reparse tag when
`reparse_points.is_reparse_point` holds (line 106); `st_size` is the
link-level size read at line 235. -/
structure Meta where
  lstat : Except PyErr Nat
  readlink_ok : Bool
  is_dir_follow : Bool
  reparse_tag : Option Nat
  st_size : Nat
deriving DecidableEq, Repr

/-- Embedding of `FileType.from_path` (src/parallel_traversal.py, lines
87-120).  `win32` is `sys.platform == "win32"`.  Only `FileNotFoundError`
is caught around `lstat` (line 92); any other `OSError` propagates.  On NT,
a reparse point's raw tag is converted by `ReparseTag(...)` inside
`get_reparse_info` (src/reparse_points.py, line 261), which raises
`ValueError` for a value outside the enum; the call at line 107 sits in no
try block, so that `ValueError` propagates out of `from_path`. -/
def FileType.from_path (win32 : Bool) (m : Meta) : Except PyErr FileType :=
  match m.lstat with
  | .error .fileNotFound => .ok .NONEXISTENT
  | .error e => .error e
  | .ok mode =>
    if S_ISLNK mode then .ok .SYMLINK
    else if m.readlink_ok then .ok .JUNCTION
    else if S_ISDIR mode then .ok .DIRECTORY
    else if S_ISREG mode then
      (if win32 then
        match m.reparse_tag with
        | some tag =>
          if reparseTagKnown tag then
            if tag = IO_REPARSE_TAG_LX_SYMLINK then .ok .WSL_SYMLINK
            else if tag = IO_REPARSE_TAG_DEDUP then .ok .FILE
            else .ok .UNKNOWN
          else .error .valueError
        | none => .ok .FILE
      else .ok .FILE)
    else if S_ISBLK mode || S_ISCHR mode || S_ISFIFO mode || S_ISSOCK mode then
      .ok .DEVICE
    else .ok .UNKNOWN

/-- Modelled from the spec: the decision table of spec section 4.A for a path
whose link-level metadata was found, written from the claim's words, to be
compared with `FileType.from_path`: symlink bit set → SYMLINK; readlink
succeeding on a non-symlink → JUNCTION; directory bit → DIRECTORY;
regular-file bit → FILE, except on NT where a reparse point tagged
LX_SYMLINK yields WSL_SYMLINK, DEDUP yields FILE, and any other tag yields
UNKNOWN; block/character/FIFO/socket bits → DEVICE; anything else →
UNKNOWN. -/
def classifyTable (win32 : Bool) (m : Meta) (mode : Nat) : FileType :=
  if S_ISLNK mode then .SYMLINK
  else if m.readlink_ok then .JUNCTION
  else if S_ISDIR mode then .DIRECTORY
  else if S_ISREG mode then
    (if win32 then
      match m.reparse_tag with
      | some tag =>
        if tag = IO_REPARSE_TAG_LX_SYMLINK then .WSL_SYMLINK
        else if tag = IO_REPARSE_TAG_DEDUP then .FILE
        else .UNKNOWN
      | none => .FILE
    else .FILE)
  else if S_ISBLK mode || S_ISCHR mode || S_ISFIFO mode || S_ISSOCK mode then
    .DEVICE
  else .UNKNOWN

/-- Embedding of `os.path.lexists`: `os.lstat` in a try/except over
`OSError` (so any error, including permission denial, yields `False`). -/
def lexists (m : Meta) : Bool := m.lstat.isOk

/-- Classification of `m` succeeded and returned `DIRECTORY`.  This is the
test on line 338 / line 374, `FileType.from_path(p) == FileType.DIRECTORY`,
in the case where no exception is raised. -/
def isDirClass (win32 : Bool) (m : Meta) : Bool :=
  match FileType.from_path win32 m with
  | .ok .DIRECTORY => true
  | _ => false

/-- Coherence of one path's metadata, true of every static healthy
filesystem: the classifier returns `DIRECTORY` exactly when the follow-links
`is_dir` test succeeds and `readlink` fails (a genuine directory reached
not through a link).  Racy or contradictory syscall answers are outside
every claim's scope. -/
def coherent (win32 : Bool) (m : Meta) : Bool :=
  isDirClass win32 m == (m.is_dir_follow && !m.readlink_ok)

/-! ### `pretty_time` (lines 134-142), over `ℚ` -/

/-- Round to the nearest integer, ties to even: the rounding applied by
Python's fixed-point float formatting (exact for inputs that are not
binary-representation ties). -/
def ratFloor (q : ℚ) : ℤ := ⌊q⌋

def roundHalfEven (q : ℚ) : ℤ :=
  let n := ratFloor q
  let r := q - n
  if r < 1 / 2 then n
  else if 1 / 2 < r then n + 1
  else if n % 2 = 0 then n else n + 1

/-- Decimal digits of a natural number (fuel-based so that it reduces in
the kernel; the fuel `n + 1` always suffices). -/
def natDigitsAux : Nat → Nat → List Char
  | 0, _ => []
  | fuel + 1, n =>
    if n < 10 then [Nat.digitChar n]
    else natDigitsAux fuel (n / 10) ++ [Nat.digitChar (n % 10)]

/-- Python `str` of an integer. -/
def intToStr (i : ℤ) : String :=
  if i < 0 then "-" ++ String.mk (natDigitsAux ((-i).toNat + 1) (-i).toNat)
  else String.mk (natDigitsAux (i.toNat + 1) i.toNat)

/-- Left-pad a rendered number to `width` characters with spaces or zeros. -/
def padLeftStr (s : String) (width : Nat) (zero : Bool) : String :=
  String.mk (List.replicate (width - s.length) (if zero then '0' else ' ')) ++ s

/-- Python `format(q, 'W.0f')`: round to an integer, pad to width `width`
(space-padded when `zero` is false, zero-padded when true). -/
def formatFixed0 (q : ℚ) (width : Nat) (zero : Bool) : String :=
  padLeftStr (intToStr (roundHalfEven q)) width zero

/-- Python `format(q, '.2f')` for the nonnegative inputs used here. -/
def formatFixed2 (q : ℚ) : String :=
  let n := roundHalfEven (q * 100)
  intToStr (n / 100) ++ "." ++ padLeftStr (intToStr (n % 100)) 2 true

/-- Python `%` on floats for a positive divisor. -/
def pymod (a b : ℚ) : ℚ := a - b * (ratFloor (a / b) : ℚ)

/-- Embedding of `pretty_time` (lines 134-142).  The function body has no
final `return`, so an argument of 86400 seconds or more yields `None`. -/
def pretty_time (seconds : ℚ) : Option String :=
  if seconds < 60 then
    some (formatFixed2 seconds ++ " s")
  else if seconds < 60 * 60 then
    some (formatFixed0 (seconds / 60) 2 false ++ ":" ++
          formatFixed0 (pymod seconds 60) 2 true)
  else if seconds < 60 * 60 * 24 then
    some (formatFixed0 (seconds / 60 / 60) 2 false ++ ":" ++
          formatFixed0 (pymod seconds 60 / 60) 2 true ++ ":" ++
          formatFixed0 (pymod (pymod seconds 60) 60) 2 true)
  else none

/-! ### Width-aware truncation and the progress line (lines 149-223) -/

/-- Restriction of `wcwidth.wcwidth` to printable, non-combining
characters: East-Asian wide blocks count 2 columns, everything else 1. -/
def wcwidthC (c : Char) : Int :=
  if (0x1100 ≤ c.toNat && c.toNat ≤ 0x115F) ||
     (0x2E80 ≤ c.toNat && c.toNat ≤ 0xA4CF) ||
     (0xAC00 ≤ c.toNat && c.toNat ≤ 0xD7A3) ||
     (0xF900 ≤ c.toNat && c.toNat ≤ 0xFAFF) ||
     (0xFF00 ≤ c.toNat && c.toNat ≤ 0xFF60) ||
     (0x20000 ≤ c.toNat && c.toNat ≤ 0x2FFFD) then 2 else 1

/-- `wcwidth.wcswidth`: total on-screen width of a string. -/
def wcswidthL (s : List Char) : Int :=
  s.foldr (fun c acc => wcwidthC c + acc) 0

/-- The accumulator loop of `truncate_str_end` (lines 149-159): take
characters while the running width stays within `maxWidth`, stopping at the
first overflowing character. -/
def truncEndGo (maxWidth width : Int) : List Char → List Char
  | [] => []
  | c :: rest =>
    if width + wcwidthC c > maxWidth then []
    else c :: truncEndGo maxWidth (width + wcwidthC c) rest

/-- Embedding of `truncate_str_end` (lines 149-159). -/
def truncate_str_end (s : List Char) (maxWidth : Int) : List Char :=
  truncEndGo maxWidth 0 s

/-- Embedding of `truncate_str_middle` (lines 162-173).  Note
`max_width // 2` is Python floor division, `Int.fdiv` here. -/
def truncate_str_middle (s : List Char) (maxWidth : Int) : List Char :=
  if wcswidthL s ≤ maxWidth then s
  else
    let halfMaxWidth := Int.fdiv maxWidth 2 - 1
    let firstHalf := truncate_str_end s halfMaxWidth
    let secondHalf := (truncate_str_end s.reverse halfMaxWidth).reverse
    firstHalf ++ ('.' :: '.' :: '.' :: []) ++ secondHalf

/-- The `", current: "` separator appended at line 199 when a path is
present. -/
def currentSep : List Char := ", current: ".toList

/-- Embedding of the layout part of `print_progress_inplace` (lines
198-217): `message0` is the already-formatted counter prefix (lines
193-197), `pathText` the path, `terminalWidth` the column count.  Returns
the characters written after the carriage return.  In the first branch the
code sets `message_width := terminal_width` without re-measuring, so no
padding is added there; in the second branch the path is middle-truncated
to `terminal_width - message_width - 3` and the final width is re-measured
before padding. -/
def print_progress_inplace (message0 pathText : List Char) (terminalWidth : Int) :
    List Char :=
  let message := if pathText.isEmpty then message0 else message0 ++ currentSep
  let messageWidth := wcswidthL message
  let pathTextWidth := wcswidthL pathText
  if messageWidth > terminalWidth then
    truncate_str_end message terminalWidth
  else if messageWidth + pathTextWidth > terminalWidth then
    let pathText2 := truncate_str_middle pathText (terminalWidth - messageWidth - 3)
    let message2 := message ++ pathText2
    let messageWidth2 := messageWidth + wcswidthL pathText2
    message2 ++ List.replicate (terminalWidth - messageWidth2).toNat ' '
  else
    (message ++ pathText) ++
      List.replicate (terminalWidth - (messageWidth + pathTextWidth)).toNat ' '

/-! ### Directory trees -/

mutual
/-- One filesystem entry: its syscall-visible metadata and the entries
`os.scandir` on its path returns (for a link to a directory these are the
target's entries, reached through the link). -/
inductive Node where
  | mk (meta : Meta) (children : Forest)

/-- A scandir listing, in directory order. -/
inductive Forest where
  | nil
  | cons (name : String) (child : Node) (rest : Forest)
end

def Node.meta : Node → Meta
  | .mk m _ => m

def Node.children : Node → Forest
  | .mk _ f => f

def Forest.isNil : Forest → Bool
  | .nil => true
  | .cons _ _ _ => false

/-- The `(name, metadata)` pairs a scandir of this directory yields. -/
def forestMetas : Forest → List (String × Meta)
  | .nil => []
  | .cons n c rest => (n, c.meta) :: forestMetas rest

/-- The `(name, node)` pairs of a listing. -/
def forestEntries : Forest → List (String × Node)
  | .nil => []
  | .cons n c rest => (n, c) :: forestEntries rest

def forestNames : Forest → List String
  | .nil => []
  | .cons n _ rest => n :: forestNames rest

/-- Number of entries below a directory (the directory itself excluded). -/
def countForest : Forest → Nat
  | .nil => 0
  | .cons _ (.mk _ f) rest => 1 + countForest f + countForest rest

/-- Number of entries of the tree rooted at a node, the root included. -/
def countNode : Node → Nat
  | .mk _ f => 1 + countForest f

/-- `p` holds of the metadata of every entry strictly below this listing. -/
def allMetas (p : Meta → Bool) : Forest → Bool
  | .nil => true
  | .cons _ (.mk m f) rest => p m && allMetas p f && allMetas p rest

/-- Sibling names are distinct, recursively at every level (true of every
real directory listing). -/
def nodupDeep : Forest → Bool
  | .nil => true
  | .cons n (.mk _ cf) rest =>
    !((forestNames rest).contains n) && nodupDeep cf && nodupDeep rest

/-- A plain static file/directory tree, the shape claim C1 quantifies over:
every entry's `lstat` succeeds, metadata is `coherent`, and only entries the
classifier calls `DIRECTORY` have children. -/
def plainForest (win32 : Bool) : Forest → Bool
  | .nil => true
  | .cons _ (.mk m f) rest =>
    m.lstat.isOk && coherent win32 m && (f.isNil || isDirClass win32 m) &&
      plainForest win32 f && plainForest win32 rest

/-- Root counterpart of `plainForest`: the root is a genuine directory. -/
def plainNode (win32 : Bool) : Node → Bool
  | .mk m f =>
    m.lstat.isOk && coherent win32 m && isDirClass win32 m && m.is_dir_follow &&
      plainForest win32 f

/-- The canonical entry list of the tree rooted at `q`; `allPathsF q f` are
the entries strictly below a directory at path `q`. -/
def allPathsF (q : List String) : Forest → List (List String)
  | .nil => []
  | .cons n (.mk _ cf) rest =>
    (q ++ [n]) :: (allPathsF (q ++ [n]) cf ++ allPathsF q rest)

def allPaths (q : List String) : Node → List (List String)
  | .mk _ f => q :: allPathsF q f

/-- Claim C4's spec-side reachability condition for a visited entry at
suffix `s` below the root: every strictly intermediate entry on the chain
is classified `DIRECTORY`, and when the visit is a `dir_func` visit the
final entry is classified `DIRECTORY` as well (so links only ever receive
`file_func`). -/
def entryOk (win32 : Bool) (isDirTask : Bool) (f : Forest) : List String → Bool
  | [] => false
  | [n] =>
    !isDirTask ||
      (forestEntries f).any (fun p => p.1 == n && isDirClass win32 p.2.meta)
  | n :: m :: rest =>
    (forestEntries f).any (fun p =>
      p.1 == n && isDirClass win32 p.2.meta &&
        entryOk win32 isDirTask p.2.children (m :: rest))
termination_by s => s.length
decreasing_by all_goals simp_wf

/-! ### Tasks and the two schedulers (lines 266-389) -/

/-- One `executor.submit` of the traversal: the entry's path (as the
components below the filesystem root), whether the wrapped op is `dir_func`
or `file_func`, the paths whose futures the task's `after_futures_done`
wrapper waits on before running the op (empty when the op is submitted
directly), and the entry's link-level size. -/
structure Task where
  path : List String
  isDirOp : Bool
  deps : List (List String)
  size : Nat
deriving DecidableEq, Repr

/-- The `dirnames` classification loop of lines 336-342 / 372-377: classify
each entry in order, propagating the first uncaught exception; entries
classified `DIRECTORY` are kept, the rest are re-categorised (appended to
`filenames`), preserving order. -/
def splitDirnames (win32 : Bool) :
    List (String × Meta) → Except PyErr (List (String × Meta) × List (String × Meta))
  | [] => .ok ([], [])
  | p :: rest =>
    match FileType.from_path win32 p.2 with
    | .error e => .error e
    | .ok k =>
      match splitDirnames win32 rest with
      | .error e => .error e
      | .ok (kept, recat) =>
        if k = FileType.DIRECTORY then .ok (p :: kept, recat)
        else .ok (kept, p :: recat)

/-- Pure value of `splitDirnames` when no classification raises. -/
def splitDirnamesP (win32 : Bool) (l : List (String × Meta)) :
    List (String × Meta) × List (String × Meta) :=
  (l.filter (fun p => isDirClass win32 p.2),
   l.filter (fun p => !isDirClass win32 p.2))

/-- Tasks submitted while the pre-order walk body (lines 332-358) processes
the directory at path `q` whose scandir yields `cs`: `os.walk` splits `cs`
into `dirnames` (follow-links `is_dir` true) and the rest; kept dirnames
get a `dir_func` task, re-categorised ones join `filenames`; each filename
that still `lexists` gets a `file_func` task.  With
`strict_hierarchical_order` every submitted task waits on the parent's
future (keyed here by the parent path `q`, as in `dirpath_to_future`). -/
def preBody (win32 strict : Bool) (q : List String) (cs : List (String × Meta)) :
    Except PyErr (List Task) :=
  let dirnames := cs.filter (fun p => p.2.is_dir_follow)
  let nondirs := cs.filter (fun p => !p.2.is_dir_follow)
  match splitDirnames win32 dirnames with
  | .error e => .error e
  | .ok (kept, recat) =>
    let deps := if strict then [q] else ([] : List (List String))
    .ok ((kept.map (fun p => Task.mk (q ++ [p.1]) true deps p.2.st_size)) ++
      ((nondirs ++ recat).filter (fun p => lexists p.2)).map
        (fun p => Task.mk (q ++ [p.1]) false deps p.2.st_size))

/-- Pure value of `preBody` when no classification raises. -/
def preBodyP (win32 strict : Bool) (q : List String) (cs : List (String × Meta)) :
    List Task :=
  let dirnames := cs.filter (fun p => p.2.is_dir_follow)
  let nondirs := cs.filter (fun p => !p.2.is_dir_follow)
  let kept := dirnames.filter (fun p => isDirClass win32 p.2)
  let recat := dirnames.filter (fun p => !isDirClass win32 p.2)
  let deps := if strict then [q] else ([] : List (List String))
  (kept.map (fun p => Task.mk (q ++ [p.1]) true deps p.2.st_size)) ++
    ((nondirs ++ recat).filter (fun p => lexists p.2)).map
      (fun p => Task.mk (q ++ [p.1]) false deps p.2.st_size)

/-- Tasks submitted for the subtrees below the directory at `q` during the
pre-order walk: `os.walk` (top-down, `followlinks=False`) descends into a
child exactly when it stayed in `dirnames`, i.e. its follow-links `is_dir`
was true and the classifier said `DIRECTORY` (the walk's own `islink` test
is then false since a `DIRECTORY`-classified entry is never a symlink).
The child's own body is emitted before its subtrees, depth-first, in
listing order. -/
def preSubs (win32 strict : Bool) (q : List String) : Forest → Except PyErr (List Task)
  | .nil => .ok []
  | .cons n (.mk cm cf) rest =>
    if cm.is_dir_follow && isDirClass win32 cm then
      match preBody win32 strict (q ++ [n]) (forestMetas cf) with
      | .error e => .error e
      | .ok body =>
        match preSubs win32 strict (q ++ [n]) cf with
        | .error e => .error e
        | .ok subs =>
          match preSubs win32 strict q rest with
          | .error e => .error e
          | .ok rs => .ok (body ++ subs ++ rs)
    else preSubs win32 strict q rest

/-- Pure value of `preSubs` when no classification raises. -/
def preSubsP (win32 strict : Bool) (q : List String) : Forest → List Task
  | .nil => []
  | .cons n (.mk cm cf) rest =>
    if cm.is_dir_follow && isDirClass win32 cm then
      preBodyP win32 strict (q ++ [n]) (forestMetas cf) ++
        preSubsP win32 strict (q ++ [n]) cf ++ preSubsP win32 strict q rest
    else preSubsP win32 strict q rest

/-- Embedding of `_parallel_pre_order_apply` (lines 322-358) for the root
directory at path `r`: the root's `dir_func` is submitted first with no
dependencies (line 329), then `os.walk` enumerates the root's listing
unconditionally (so even a link root is read through) and the walk bodies
run as in `preBody`/`preSubs`. -/
def parallel_pre_order_apply (win32 strict : Bool) (r : List String) :
    Node → Except PyErr (List Task)
  | .mk m f =>
    match preBody win32 strict r (forestMetas f) with
    | .error e => .error e
    | .ok body =>
      match preSubs win32 strict r f with
      | .error e => .error e
      | .ok subs => .ok (Task.mk r true [] m.st_size :: (body ++ subs))

def parallel_pre_order_applyP (win32 strict : Bool) (r : List String) :
    Node → List Task
  | .mk m f =>
    Task.mk r true [] m.st_size ::
      (preBodyP win32 strict r (forestMetas f) ++ preSubsP win32 strict r f)

/-- The dependency list collected in `child_futures` (lines 371-383) for
the directory at `q` with listing `cs`: the futures of kept `dirnames`
children (popped from `dirpath_to_future`) followed by the futures of all
`filenames` children, the re-categorised ones included. -/
def childDepsP (win32 : Bool) (q : List String) (cs : List (String × Meta)) :
    List (List String) :=
  let dirnames := cs.filter (fun p => p.2.is_dir_follow)
  let nondirs := cs.filter (fun p => !p.2.is_dir_follow)
  let kept := dirnames.filter (fun p => isDirClass win32 p.2)
  let recat := dirnames.filter (fun p => !isDirClass win32 p.2)
  (kept.map (fun p => q ++ [p.1])) ++ (nondirs ++ recat).map (fun p => q ++ [p.1])

/-- Tasks submitted while `_parallel_post_order_apply` (lines 361-389)
processes the yield of `walk_post_order` for the directory at `q` with
listing `cs`: every `filenames` child (re-categorised `dirnames` children
included, no existence re-check) gets a `file_func` task submitted directly
with no dependencies (line 382), then the directory's own `dir_func` task
is submitted waiting on `child_futures` when strict (line 385-388). -/
def postYield (win32 strict : Bool) (q : List String) (size : Nat)
    (cs : List (String × Meta)) : Except PyErr (List Task) :=
  let dirnames := cs.filter (fun p => p.2.is_dir_follow)
  let nondirs := cs.filter (fun p => !p.2.is_dir_follow)
  match splitDirnames win32 dirnames with
  | .error e => .error e
  | .ok (_, recat) =>
    .ok (((nondirs ++ recat).map
        (fun p => Task.mk (q ++ [p.1]) false [] p.2.st_size)) ++
      [Task.mk q true (if strict then childDepsP win32 q cs else []) size])

/-- Pure value of `postYield` when no classification raises. -/
def postYieldP (win32 strict : Bool) (q : List String) (size : Nat)
    (cs : List (String × Meta)) : List Task :=
  let dirnames := cs.filter (fun p => p.2.is_dir_follow)
  let nondirs := cs.filter (fun p => !p.2.is_dir_follow)
  let recat := dirnames.filter (fun p => !isDirClass win32 p.2)
  ((nondirs ++ recat).map (fun p => Task.mk (q ++ [p.1]) false [] p.2.st_size)) ++
    [Task.mk q true (if strict then childDepsP win32 q cs else []) size]

/-- Tasks for the subtrees below `q` in `walk_post_order` order (lines
17-68): the walk descends into a child exactly when the child's
follow-links `is_dir` is true and `os.readlink` on it fails (lines 37-58);
each walked subtree is emitted in full (deepest first), its own yield last,
before the next sibling. -/
def postSubs (win32 strict : Bool) (q : List String) : Forest → Except PyErr (List Task)
  | .nil => .ok []
  | .cons n (.mk cm cf) rest =>
    if cm.is_dir_follow && !cm.readlink_ok then
      match postSubs win32 strict (q ++ [n]) cf with
      | .error e => .error e
      | .ok subs =>
        match postYield win32 strict (q ++ [n]) cm.st_size (forestMetas cf) with
        | .error e => .error e
        | .ok y =>
          match postSubs win32 strict q rest with
          | .error e => .error e
          | .ok rs => .ok (subs ++ y ++ rs)
    else postSubs win32 strict q rest

/-- Pure value of `postSubs` when no classification raises. -/
def postSubsP (win32 strict : Bool) (q : List String) : Forest → List Task
  | .nil => []
  | .cons n (.mk cm cf) rest =>
    if cm.is_dir_follow && !cm.readlink_ok then
      postSubsP win32 strict (q ++ [n]) cf ++
        postYieldP win32 strict (q ++ [n]) cm.st_size (forestMetas cf) ++
        postSubsP win32 strict q rest
    else postSubsP win32 strict q rest

/-- Embedding of `_parallel_post_order_apply` (lines 361-389) for the root
directory at `r`: the walk yields every walked subtree below the root, then
the root's own listing, whose yield ends with the root `dir_func` task. -/
def parallel_post_order_apply (win32 strict : Bool) (r : List String) :
    Node → Except PyErr (List Task)
  | .mk m f =>
    match postSubs win32 strict r f with
    | .error e => .error e
    | .ok subs =>
      match postYield win32 strict r m.st_size (forestMetas f) with
      | .error e => .error e
      | .ok y => .ok (subs ++ y)

def parallel_post_order_applyP (win32 strict : Bool) (r : List String) :
    Node → List Task
  | .mk m f =>
    postSubsP win32 strict r f ++ postYieldP win32 strict r m.st_size (forestMetas f)

/-! ### Shared globals, the op wrapper, and process semantics -/

/-- The module-level shared state: `num_done_files`, `num_done_dirs`,
`num_done_bytes` (lines 71-73) and `start_time` (line 145). -/
structure Globals where
  num_done_files : Nat
  num_done_dirs : Nat
  num_done_bytes : Nat
  start_time : Nat
deriving DecidableEq, Repr

/-- The module-import initialisation of the globals (lines 71-73, 145):
this is the only place the counters are ever set to zero. -/
def moduleInit : Globals := ⟨0, 0, 0, 0⟩

/-- Counter updates of a successful `call_with_progress_and_try` run for
one task (lines 247-251). -/
def bumpTask (g : Globals) (t : Task) : Globals :=
  { g with
    num_done_files := if t.isDirOp then g.num_done_files else g.num_done_files + 1
    num_done_dirs := if t.isDirOp then g.num_done_dirs + 1 else g.num_done_dirs
    num_done_bytes := g.num_done_bytes + t.size }

/-- Aggregate effect on the shared counters of all tasks of a traversal
completing (each increment modelled as atomic; the count contributions are
order-independent). -/
def runTasks (ts : List Task) (g : Globals) : Globals :=
  ts.foldl bumpTask g

/-- Outcome of one `call_with_progress_and_try` run (lines 226-256): either
the user op returned and the counters were bumped, or it raised, in which
case a diagnostic is printed (under the shared lock when one was supplied)
and the whole process is terminated via `os._exit(1)`. -/
inductive RunOutcome where
  | completed (isDir : Bool)
  | aborted (diagPrinted usedLock : Bool) (exitCode : Nat)
deriving DecidableEq, Repr

/-- Embedding of `call_with_progress_and_try` (lines 226-256). `opRaises`
says whether `func(path, root)` raises; `hasLock` whether a `print_lock`
was supplied. -/
def call_with_progress_and_try (opRaises isDir hasLock : Bool) (size : Nat)
    (g : Globals) : RunOutcome × Globals :=
  if opRaises then (.aborted true hasLock 1, g)
  else (.completed isDir, bumpTask g (Task.mk [] isDir [] size))

/-- Process state for the fail-fast semantics: tasks not yet completed, the
shared globals, and the exit code once `os._exit` has run. -/
structure ProcState where
  pending : List Task
  globals : Globals
  exited : Option Nat
deriving DecidableEq, Repr

/-- One worker finishing one task.  `fails t.path` says whether the user op
raises on that path.  `os._exit(1)` makes the exited state terminal: no
step leaves a state with `exited ≠ none`, which is exactly the claim that
no further task completes after an abort. -/
inductive PStep (fails : List String → Bool) (hasLock : Bool) :
    ProcState → ProcState → Prop where
  | run (pending : List Task) (g : Globals) (t : Task) (ht : t ∈ pending) :
      PStep fails hasLock ⟨pending, g, none⟩
        (match call_with_progress_and_try (fails t.path) t.isDirOp hasLock t.size g with
          | (.completed _, g2) => ⟨pending.erase t, g2, none⟩
          | (.aborted _ _ code, g2) => ⟨pending, g2, some code⟩)

/-! ### The non-directory-root submission (lines 300-307) -/

/-- Positional parameters `call_with_progress_and_try` still requires after
`functools.partial` binds `func`, `is_dir` and `print_lock` (lines
296-299): `path` and `root`. -/
def wrapperRequiredPositional : Nat := 2

/-- Positional arguments supplied by `executor.submit(file_func,
Path(path))` at line 307: only `path`. -/
def nonDirRootSuppliedPositional : Nat := 1

/-- Running the task submitted for a non-directory root (line 307): the
call binding is incomplete, so Python raises `TypeError` inside the worker
before `call_with_progress_and_try` begins; the `Future` stores the
exception and nothing ever reads it.  Returns the globals and the number of
times the user `file_func` was invoked. -/
def runNonDirRootTask (g : Globals) : Globals × Nat :=
  if nonDirRootSuppliedPositional < wrapperRequiredPositional then (g, 0)
  else (bumpTask g (Task.mk [] false [] 0), 1)

/-- Embedding of `parallel_recursive_apply` (lines 266-319) for a single
root whose scandir path is `r`: line 294 resets `start_time` only (the
counters keep their prior values); line 306 routes on `os.path.isdir`; a
non-directory root's submission silently dies with `TypeError` (line 307,
see `runNonDirRootTask`), and a directory root is traversed in the chosen
order, all tasks then completing successfully. -/
def parallel_recursive_apply (win32 pre strict : Bool) (r : List String)
    (root : Node) (now : Nat) (g : Globals) : Except PyErr Globals :=
  let g1 := { g with start_time := now }
  if root.meta.is_dir_follow then
    match (if pre then parallel_pre_order_apply win32 strict r root
           else parallel_post_order_apply win32 strict r root) with
    | .error e => .error e
    | .ok ts => .ok (runTasks ts g1)
  else .ok (runNonDirRootTask g1).1

/-! ### Execution timing model for the ordering claims -/

/-- Timestamps of a concurrent run, keyed by task path: when the wrapped
user op starts and finishes, and when the submitted future completes. -/
structure ExecTimes where
  opStart : List String → Nat
  opEnd : List String → Nat
  futDone : List String → Nat

/-- What the executor guarantees for any real run of a task list: a task's
op starts before it ends; the future completes no earlier than the op ends
(the op runs inside the submitted callable); and `wait(futures)` inside
`after_futures_done` returns only after every awaited future is done, so
the op starts strictly after each dependency's future completed. -/
def ValidExec (ts : List Task) (e : ExecTimes) : Prop :=
  (∀ t ∈ ts, e.opStart t.path ≤ e.opEnd t.path ∧ e.opEnd t.path ≤ e.futDone t.path) ∧
  (∀ t ∈ ts, ∀ d ∈ t.deps, e.futDone d < e.opStart t.path)

instance (ts : List Task) (e : ExecTimes) : Decidable (ValidExec ts e) := by
  unfold ValidExec; infer_instance

/-! ### Concrete fixtures for witnesses and counterexamples -/

/-- Size measure used for induction over forests. -/
def forestSize : Forest → Nat
  | .nil => 0
  | .cons _ (.mk _ cf) rest => 1 + forestSize cf + forestSize rest

/-- Metadata of an ordinary directory (`st_mode = 0o040755`). -/
def mDir : Meta := ⟨.ok 0o040755, false, true, none, 0⟩

/-- Metadata of an ordinary regular file (`st_mode = 0o100644`). -/
def mFile : Meta := ⟨.ok 0o100644, false, false, none, 7⟩

/-- Metadata of a symlink whose target is a directory: `lstat` shows the
link bit, `readlink` succeeds, and the follow-links `is_dir` is true. -/
def mLinkDir : Meta := ⟨.ok 0o120777, true, true, none, 0⟩

/-- Metadata of a path whose `lstat` raises `PermissionError` while the
scandir-level `is_dir` (from `d_type`) still reported a directory. -/
def mPermDenied : Meta := ⟨.error .permissionDenied, false, true, none, 0⟩

/-- Metadata of an NT regular file that is a reparse point tagged
`IO_REPARSE_TAG_LX_SYMLINK` (a WSL symlink). -/
def mWslTag : Meta := ⟨.ok 0o100644, false, false, some 0xA000001D, 0⟩

/-- Metadata of an NT regular file that is a reparse point whose tag
`0xA0000028` is absent from the `ReparseTag` enum. -/
def mBadTag : Meta := ⟨.ok 0o100644, false, false, some 0xA0000028, 0⟩

/-- A one-entry tree: a childless directory. -/
def tRoot1 : Node := .mk mDir .nil

/-- A directory root with a single regular-file child `a`. -/
def tRootA : Node := .mk mDir (.cons "a" (.mk mFile .nil) .nil)

/-- A symlink-to-directory root whose target contains the file `a`:
`os.path.isdir` is true for it, so both walks read through the link. -/
def tLinkRoot : Node := .mk mLinkDir (.cons "a" (.mk mFile .nil) .nil)

/-- A directory root containing a symlink `L` to a directory that holds a
file `x` (reachable only through `L`). -/
def tWithLink : Node :=
  .mk mDir (.cons "L" (.mk mLinkDir (.cons "x" (.mk mFile .nil) .nil)) .nil)

/-- A directory root with a child whose `lstat` raises `PermissionError`. -/
def tPerm : Node := .mk mDir (.cons "p" (.mk mPermDenied .nil) .nil)

/-- A non-directory root (a plain file), as dispatched by line 306. -/
def nonDirRootNode : Node := .mk mFile .nil

/-- Explicit timestamps for a two-task pre-order run of `tRootA`: the root
op during [0,1], its future done at 1, the child op during [2,3]. -/
def eTimesPre : ExecTimes :=
  ⟨fun p => if p = ["r"] then 0 else 2,
   fun p => if p = ["r"] then 1 else 3,
   fun p => if p = ["r"] then 1 else 3⟩

/-- Explicit timestamps for a two-task post-order run of `tRootA`: the
child file op during [0,1], the root op during [2,3]. -/
def eTimesPost : ExecTimes :=
  ⟨fun p => if p = ["r"] then 2 else 0,
   fun p => if p = ["r"] then 3 else 1,
   fun p => if p = ["r"] then 3 else 1⟩

/-- The counter prefix of the progress line with all counters at zero
(lines 193-197), 72 columns of plain ASCII. -/
def statsCex : List Char :=
  "0 files, 0 dirs, total size: 0 B, 0.00 items/s, 0.0 B/s, elapsed: 0.00 s".toList

/-! ## Basic classifier lemmas -/

theorem isDirClass_of_from_path (w : Bool) (m : Meta) (k : FileType)
    (h : FileType.from_path w m = .ok k) :
    isDirClass w m = decide (k = FileType.DIRECTORY) := by
  unfold isDirClass
  rw [h]
  cases k <;> rfl

/-- Counterexample to C5's "any other reparse tag yields UNKNOWN": for an NT
regular file bearing reparse tag `0xA0000028` (a value absent from the
`ReparseTag` enum), the spec's decision table answers UNKNOWN, but
`ReparseTag(...)` raises `ValueError` inside `get_reparse_info`
(src/reparse_points.py, line 261) and the call at line 107 of
src/parallel_traversal.py catches nothing, so `from_path` raises instead of
returning. -/
theorem c5_counterexample :
    classifyTable true mBadTag 0o100644 = .UNKNOWN ∧
    FileType.from_path true mBadTag = .error .valueError ∧
    FileType.from_path true mBadTag ≠ .ok (classifyTable true mBadTag 0o100644) := by
  refine ⟨by decide, by decide, by decide⟩

/-- Claim C5 (amended): for every path, `FileType.from_path` follows the
spec's section 4.A decision table in order — metadata not found →
NONEXISTENT; symlink bit → SYMLINK; readlink succeeding on a non-symlink →
JUNCTION; directory bit → DIRECTORY; regular-file bit → FILE except on NT
where a reparse point tagged LX_SYMLINK yields WSL_SYMLINK and DEDUP yields
FILE; block/character/FIFO/socket bits → DEVICE; anything else → UNKNOWN —
provided that on NT any reparse tag reported is a member value of the
`ReparseTag` enum.  For a regular file bearing a reparse tag outside the
enum, `from_path` instead propagates the `ValueError` raised by the enum
conversion. -/
theorem c5_amended (win32 : Bool) (m : Meta) :
    (∀ mode, m.lstat = .ok mode →
      (win32 = true → ∀ tag, m.reparse_tag = some tag → reparseTagKnown tag = true) →
      FileType.from_path win32 m = .ok (classifyTable win32 m mode)) ∧
    (m.lstat = .error .fileNotFound → FileType.from_path win32 m = .ok .NONEXISTENT) ∧
    (∀ mode tag, m.lstat = .ok mode → m.reparse_tag = some tag →
      reparseTagKnown tag = false → S_ISLNK mode = false →
      m.readlink_ok = false → S_ISDIR mode = false → S_ISREG mode = true →
      win32 = true → FileType.from_path win32 m = .error .valueError) := by
  refine ⟨?_, ?_, ?_⟩
  · intro mode h hk
    cases hr : m.reparse_tag with
    | none =>
      cases win32 <;>
        simp only [FileType.from_path, classifyTable, h, hr] <;>
        split_ifs <;> rfl
    | some tag =>
      cases win32 with
      | false =>
        simp only [FileType.from_path, classifyTable, h, hr]
        split_ifs <;> first | rfl | assumption
      | true =>
        have hkt : reparseTagKnown tag = true := hk rfl tag hr
        simp only [FileType.from_path, classifyTable, h, hr, hkt, if_true]
        split_ifs <;> rfl
  · intro h
    simp [FileType.from_path, h]
  · intro mode tag h ht hk h1 h2 h3 h4 h5
    subst h5
    simp [FileType.from_path, h, ht, hk, h1, h2, h3, h4]

/-- Witness for C5 at three concrete metadata records: a WSL-symlink tag in
the enum, a missing path, and the out-of-enum tag `0xA0000028`. -/
theorem c5_witness :
    FileType.from_path true mWslTag = .ok (classifyTable true mWslTag 0o100644) ∧
    FileType.from_path false ⟨.error .fileNotFound, false, false, none, 0⟩ =
      .ok .NONEXISTENT ∧
    FileType.from_path true mBadTag = .error .valueError :=
  ⟨(c5_amended true mWslTag).1 0o100644 rfl
      (fun _ tag ht => by injection ht with h; subst h; decide),
   (c5_amended false ⟨.error .fileNotFound, false, false, none, 0⟩).2.1 rfl,
   (c5_amended true mBadTag).2.2 0o100644 0xA0000028 rfl rfl (by decide)
      (by decide) rfl (by decide) (by decide) rfl⟩

/-- Claim C6: if a user op raises, `call_with_progress_and_try` prints a
diagnostic (taking the shared lock exactly when one was supplied) and
immediately terminates the process with exit status 1, leaving the counters
untouched; and since `os._exit` makes the exited state terminal, no step of
the process relation leaves a state that has exited, i.e. no further task
completes after that point. -/
theorem c6_op_failure_aborts_process (isDir hasLock : Bool) (size : Nat)
    (g : Globals) (fails : List String → Bool) :
    call_with_progress_and_try true isDir hasLock size g =
      (.aborted true hasLock 1, g) ∧
    (∀ p q : ProcState, PStep fails hasLock p q → p.exited = none) :=
  ⟨rfl, fun _ _ h => by cases h; rfl⟩

/-- Claim C7 (refuting evaluation): the submission for a non-directory root
supplies one positional argument where the wrapper still needs two (`path`
and `root`), so the worker's call raises `TypeError` before the user op: the
run invokes `file_func` zero times, leaves the globals unchanged, and
`parallel_recursive_apply` returns normally having only reset
`start_time`. -/
theorem c7_nondir_root_typeerror (win32 pre strict : Bool) (now : Nat) (g : Globals) :
    runNonDirRootTask g = (g, 0) ∧
    nonDirRootSuppliedPositional < wrapperRequiredPositional ∧
    parallel_recursive_apply win32 pre strict ["f"] nonDirRootNode now g =
      .ok { g with start_time := now } :=
  ⟨rfl, by decide, rfl⟩

theorem roundHalfEven_low (q : ℚ) (n : ℤ) (hf : ⌊q⌋ = n) (hr : q - n < 1 / 2) :
    roundHalfEven q = n := by
  simp only [roundHalfEven, ratFloor, hf]
  rw [if_pos hr]

theorem roundHalfEven_high (q : ℚ) (n : ℤ) (hf : ⌊q⌋ = n) (hr : 1 / 2 < q - n) :
    roundHalfEven q = n + 1 := by
  simp only [roundHalfEven, ratFloor, hf]
  rw [if_neg (by linarith), if_pos hr]

/-- Claim C8 (refuting evaluation): `pretty_time` renders 119 s as
`" 2:59"` because `%2.0f` rounds `119/60` instead of flooring it, and
renders 3661 s as `" 1:00:01"` because the hour branch formats
`seconds % 60 / 60` as the minutes and `seconds % 60 % 60` as the seconds;
the claimed decompositions give `1:59` and `1:01:01`.  The sub-minute
branch is fine. -/
theorem c8_pretty_time_misrenders :
    pretty_time 119 = some " 2:59" ∧
    pretty_time 3661 = some " 1:00:01" ∧
    pretty_time 30 = some "30.00 s" := by
  have e1 : roundHalfEven ((119 : ℚ) / 60) = 2 :=
    roundHalfEven_high _ 1 (by norm_num) (by norm_num)
  have e2 : pymod 119 60 = 59 := by rw [pymod, ratFloor]; norm_num
  have e3 : roundHalfEven ((59 : ℚ)) = 59 :=
    roundHalfEven_low _ 59 (by norm_num) (by norm_num)
  have e4 : roundHalfEven ((3661 : ℚ) / 60 / 60) = 1 :=
    roundHalfEven_low _ 1 (by norm_num) (by norm_num)
  have e5 : pymod 3661 60 = 1 := by rw [pymod, ratFloor]; norm_num
  have e6 : roundHalfEven ((1 : ℚ) / 60) = 0 :=
    roundHalfEven_low _ 0 (by norm_num) (by norm_num)
  have e7 : pymod 1 60 = 1 := by rw [pymod, ratFloor]; norm_num
  have e8 : roundHalfEven ((1 : ℚ)) = 1 :=
    roundHalfEven_low _ 1 (by norm_num) (by norm_num)
  have e9 : roundHalfEven ((30 : ℚ) * 100) = 3000 :=
    roundHalfEven_low _ 3000 (by norm_num) (by norm_num)
  refine ⟨?_, ?_, ?_⟩
  · rw [pretty_time, if_neg (by norm_num), if_pos (by norm_num)]
    simp only [formatFixed0]
    rw [e1, e2, e3]
    decide
  · rw [pretty_time, if_neg (by norm_num), if_neg (by norm_num), if_pos (by norm_num)]
    simp only [formatFixed0]
    rw [e4, e5, e7, e6, e8]
    decide
  · rw [pretty_time, if_pos (by norm_num)]
    simp only [formatFixed2]
    rw [e9]
    decide

/-- Claim C10: an `lstat` failure other than file-not-found propagates out
of `FileType.from_path`, and when it strikes a `dirnames` child during
pre-order enumeration the exception escapes `_parallel_pre_order_apply` and
`parallel_recursive_apply` on the caller's thread — it is neither swallowed
by re-categorisation nor routed through the fail-fast process abort. -/
theorem c10_lstat_error_escapes (win32 strict : Bool) (m rootm cm : Meta)
    (e : PyErr) (r : List String) (name : String) (cf rest : Forest)
    (now : Nat) (g : Globals)
    (he : e ≠ .fileNotFound) (hm : m.lstat = .error e)
    (hcm : cm.lstat = .error .permissionDenied) (hdf : cm.is_dir_follow = true)
    (hroot : rootm.is_dir_follow = true) :
    FileType.from_path win32 m = .error e ∧
    parallel_pre_order_apply win32 strict r
      (.mk rootm (.cons name (.mk cm cf) rest)) = .error .permissionDenied ∧
    parallel_recursive_apply win32 true strict r
      (.mk rootm (.cons name (.mk cm cf) rest)) now g = .error .permissionDenied := by
  have hcls : FileType.from_path win32 cm = .error .permissionDenied := by
    simp [FileType.from_path, hcm]
  have h2 : parallel_pre_order_apply win32 strict r
      (.mk rootm (.cons name (.mk cm cf) rest)) = .error .permissionDenied := by
    simp [parallel_pre_order_apply, preBody, forestMetas, Node.meta,
      List.filter_cons, hdf, splitDirnames, hcls]
  refine ⟨?_, h2, ?_⟩
  · cases e with
    | fileNotFound => exact absurd rfl he
    | permissionDenied => simp [FileType.from_path, hm]
    | otherOSError => simp [FileType.from_path, hm]
    | valueError => simp [FileType.from_path, hm]
  · simp [parallel_recursive_apply, Node.meta, hroot, h2]

/-- Witness for C10 on the concrete tree `tPerm`. -/
theorem c10_witness :
    FileType.from_path false mPermDenied = .error .permissionDenied ∧
    parallel_pre_order_apply false true ["r"] tPerm = .error .permissionDenied ∧
    parallel_recursive_apply false true true ["r"] tPerm 0 moduleInit =
      .error .permissionDenied :=
  c10_lstat_error_escapes false true mPermDenied mDir mPermDenied
    .permissionDenied ["r"] "p" .nil .nil 0 moduleInit
    (by decide) rfl rfl rfl rfl

/-! ## Bridging the fallible schedulers to their pure values -/

theorem splitDirnames_ok (w : Bool) :
    ∀ (l : List (String × Meta)) pr, splitDirnames w l = .ok pr →
      pr = splitDirnamesP w l := by
  intro l
  induction l with
  | nil =>
    intro pr h
    simp only [splitDirnames] at h
    cases h
    rfl
  | cons p rest ih =>
    intro pr h
    simp only [splitDirnames] at h
    cases hk : FileType.from_path w p.2 with
    | error e => rw [hk] at h; cases h
    | ok k =>
      rw [hk] at h
      cases hr : splitDirnames w rest with
      | error e => rw [hr] at h; cases h
      | ok pr2 =>
        rw [hr] at h
        obtain ⟨kept, recat⟩ := pr2
        have hP := ih _ hr
        have h1 : kept = rest.filter (fun p => isDirClass w p.2) :=
          congrArg Prod.fst hP
        have h2 : recat = rest.filter (fun p => !isDirClass w p.2) :=
          congrArg Prod.snd hP
        dsimp only at h
        by_cases hd : k = FileType.DIRECTORY
        · rw [if_pos hd] at h
          cases h
          have hc : isDirClass w p.2 = true := by
            rw [isDirClass_of_from_path w p.2 k hk, hd]; rfl
          simp [splitDirnamesP, List.filter_cons, hc, h1, h2]
        · rw [if_neg hd] at h
          cases h
          have hc : isDirClass w p.2 = false := by
            rw [isDirClass_of_from_path w p.2 k hk]
            simp [hd]
          simp [splitDirnamesP, List.filter_cons, hc, h1, h2]

theorem preBody_ok (w s : Bool) (q : List String) (cs : List (String × Meta))
    (ts : List Task) (h : preBody w s q cs = .ok ts) : ts = preBodyP w s q cs := by
  simp only [preBody] at h
  cases hs : splitDirnames w (cs.filter (fun p => p.2.is_dir_follow)) with
  | error e => rw [hs] at h; cases h
  | ok pr =>
    rw [hs] at h
    obtain ⟨kept, recat⟩ := pr
    cases h
    have hP := splitDirnames_ok w _ _ hs
    have h1 : kept = (cs.filter (fun p => p.2.is_dir_follow)).filter
        (fun p => isDirClass w p.2) := congrArg Prod.fst hP
    have h2 : recat = (cs.filter (fun p => p.2.is_dir_follow)).filter
        (fun p => !isDirClass w p.2) := congrArg Prod.snd hP
    simp [preBodyP, h1, h2]

theorem preSubs_ok_aux (w s : Bool) :
    ∀ (fuel : Nat) (f : Forest) (q : List String) (ts : List Task),
      forestSize f ≤ fuel → preSubs w s q f = .ok ts → ts = preSubsP w s q f := by
  intro fuel
  induction fuel with
  | zero =>
    intro f q ts hle h
    cases f with
    | nil => simp only [preSubs] at h; cases h; rfl
    | cons n c rest =>
      cases c with
      | mk cm cf => simp only [forestSize] at hle; omega
  | succ fuel ih =>
    intro f q ts hle h
    cases f with
    | nil => simp only [preSubs] at h; cases h; rfl
    | cons n c rest =>
      cases c with
      | mk cm cf =>
        simp only [forestSize] at hle
        have hcf : forestSize cf ≤ fuel := by omega
        have hrest : forestSize rest ≤ fuel := by omega
        simp only [preSubs, preSubsP] at h ⊢
        by_cases hg : (cm.is_dir_follow && isDirClass w cm) = true
        · rw [if_pos hg] at h
          rw [if_pos hg]
          cases hb : preBody w s (q ++ [n]) (forestMetas cf) with
          | error e => rw [hb] at h; cases h
          | ok body =>
            rw [hb] at h
            cases h1 : preSubs w s (q ++ [n]) cf with
            | error e => rw [h1] at h; cases h
            | ok subs =>
              rw [h1] at h
              cases h2 : preSubs w s q rest with
              | error e => rw [h2] at h; cases h
              | ok rs =>
                rw [h2] at h
                cases h
                rw [preBody_ok w s _ _ _ hb, ih cf _ _ hcf h1, ih rest _ _ hrest h2]
        · rw [if_neg hg] at h
          rw [if_neg hg]
          exact ih rest q ts hrest h

theorem preSubs_ok (w s : Bool) (q : List String) (f : Forest) (ts : List Task)
    (h : preSubs w s q f = .ok ts) : ts = preSubsP w s q f :=
  preSubs_ok_aux w s (forestSize f) f q ts le_rfl h

theorem parallel_pre_order_apply_ok (w s : Bool) (r : List String) (nd : Node)
    (ts : List Task) (h : parallel_pre_order_apply w s r nd = .ok ts) :
    ts = parallel_pre_order_applyP w s r nd := by
  cases nd with
  | mk m f =>
    simp only [parallel_pre_order_apply, parallel_pre_order_applyP] at h ⊢
    cases hb : preBody w s r (forestMetas f) with
    | error e => rw [hb] at h; cases h
    | ok body =>
      rw [hb] at h
      cases h1 : preSubs w s r f with
      | error e => rw [h1] at h; cases h
      | ok subs =>
        rw [h1] at h
        cases h
        rw [preBody_ok w s _ _ _ hb, preSubs_ok w s _ _ _ h1]

/-! ## Structure of the strict pre-order task graph -/

theorem preBodyP_mem (w s : Bool) (q : List String) (cs : List (String × Meta))
    (t : Task) (ht : t ∈ preBodyP w s q cs) :
    (∃ n, t.path = q ++ [n]) ∧ t.deps = (if s then [q] else []) := by
  simp only [preBodyP, List.mem_append, List.mem_map] at ht
  rcases ht with ⟨p, _, rfl⟩ | ⟨p, _, rfl⟩ <;> exact ⟨⟨p.1, rfl⟩, rfl⟩

theorem preSubsP_strict_struct (w : Bool) :
    ∀ (fuel : Nat) (f : Forest) (q : List String) (t : Task),
      forestSize f ≤ fuel → t ∈ preSubsP w true q f →
      t.deps = [t.path.dropLast] ∧ q.length < t.path.length := by
  intro fuel
  induction fuel with
  | zero =>
    intro f q t hle ht
    cases f with
    | nil => simp [preSubsP] at ht
    | cons n c rest =>
      cases c with
      | mk cm cf => simp only [forestSize] at hle; omega
  | succ fuel ih =>
    intro f q t hle ht
    cases f with
    | nil => simp [preSubsP] at ht
    | cons n c rest =>
      cases c with
      | mk cm cf =>
        simp only [forestSize] at hle
        have hcf : forestSize cf ≤ fuel := by omega
        have hrest : forestSize rest ≤ fuel := by omega
        simp only [preSubsP] at ht
        by_cases hg : (cm.is_dir_follow && isDirClass w cm) = true
        · rw [if_pos hg] at ht
          rcases List.mem_append.1 ht with ht' | hrs
          · rcases List.mem_append.1 ht' with hb | hsub
            · obtain ⟨⟨m, hm⟩, hd⟩ := preBodyP_mem w true (q ++ [n]) (forestMetas cf) t hb
              refine ⟨?_, ?_⟩
              · rw [hd, hm]
                simp
              · rw [hm]
                simp
            · obtain ⟨hd, hlen⟩ := ih cf (q ++ [n]) t hcf hsub
              refine ⟨hd, ?_⟩
              have : q.length < (q ++ [n]).length := by simp
              omega
          · exact ih rest q t hrest hrs
        · rw [if_neg hg] at ht
          exact ih rest q t hrest ht

theorem preApplyP_task_shape (w : Bool) (r : List String) (root : Node) (t : Task)
    (ht : t ∈ parallel_pre_order_applyP w true r root) :
    t.path = r ∨ (t.deps = [t.path.dropLast] ∧ r.length < t.path.length) := by
  cases root with
  | mk m f =>
    simp only [parallel_pre_order_applyP, List.mem_cons, List.mem_append] at ht
    rcases ht with rfl | hb | hs
    · exact Or.inl rfl
    · obtain ⟨⟨n, hn⟩, hd⟩ := preBodyP_mem w true r (forestMetas f) t hb
      refine Or.inr ⟨?_, ?_⟩
      · rw [hd, hn]; simp
      · rw [hn]; simp
    · exact Or.inr (preSubsP_strict_struct w (forestSize f) f r t le_rfl hs)

theorem preApplyP_len (w : Bool) (r : List String) (root : Node) (t : Task)
    (ht : t ∈ parallel_pre_order_applyP w true r root) :
    r.length ≤ t.path.length := by
  rcases preApplyP_task_shape w r root t ht with h | ⟨_, h⟩
  · rw [h]
  · omega

/-- Claim C2: with `pre_order=True` and `strict_hierarchical_order=True`,
for every parent/child pair of entries of the traversal's task graph, in
every execution the executor can produce, the parent directory's `dir_func`
invocation completes strictly before the child's op starts. -/
theorem c2_preorder_strict (win32 : Bool) (r : List String) (root : Node)
    (ts : List Task) (hgen : parallel_pre_order_apply win32 true r root = .ok ts)
    (tp tc : Task) (hp : tp ∈ ts) (hpd : tp.isDirOp = true) (hc : tc ∈ ts)
    (nm : String) (hrel : tc.path = tp.path ++ [nm])
    (e : ExecTimes) (he : ValidExec ts e) :
    e.opEnd tp.path < e.opStart tc.path := by
  obtain rfl := parallel_pre_order_apply_ok win32 true r root ts hgen
  have hplen := preApplyP_len win32 r root tp hp
  rcases preApplyP_task_shape win32 r root tc hc with hroot | ⟨hdeps, _⟩
  · exfalso
    have : tc.path.length = tp.path.length + 1 := by rw [hrel]; simp
    rw [hroot] at this
    omega
  · have hmem : tp.path ∈ tc.deps := by
      rw [hdeps, hrel]
      simp
    have h1 : e.futDone tp.path < e.opStart tc.path := he.2 tc hc tp.path hmem
    have h2 := (he.1 tp hp).2
    omega

/-- Witness for C2: the two-entry tree `tRootA`, with the explicit schedule
`eTimesPre`. -/
theorem c2_witness : eTimesPre.opEnd ["r"] < eTimesPre.opStart ["r", "a"] :=
  c2_preorder_strict false ["r"] tRootA
    [Task.mk ["r"] true [] 0, Task.mk ["r", "a"] false [["r"]] 7]
    (by decide)
    (Task.mk ["r"] true [] 0) (Task.mk ["r", "a"] false [["r"]] 7)
    (by decide) rfl (by decide) "a" rfl eTimesPre (by decide)

/-! ## Bridging and structure of the post-order task graph -/

theorem postYield_ok (w s : Bool) (q : List String) (sz : Nat)
    (cs : List (String × Meta)) (ts : List Task)
    (h : postYield w s q sz cs = .ok ts) : ts = postYieldP w s q sz cs := by
  simp only [postYield] at h
  cases hs : splitDirnames w (cs.filter (fun p => p.2.is_dir_follow)) with
  | error e => rw [hs] at h; cases h
  | ok pr =>
    rw [hs] at h
    obtain ⟨kept, recat⟩ := pr
    cases h
    have hP := splitDirnames_ok w _ _ hs
    have h2 : recat = (cs.filter (fun p => p.2.is_dir_follow)).filter
        (fun p => !isDirClass w p.2) := congrArg Prod.snd hP
    simp [postYieldP, h2]

theorem postSubs_ok_aux (w s : Bool) :
    ∀ (fuel : Nat) (f : Forest) (q : List String) (ts : List Task),
      forestSize f ≤ fuel → postSubs w s q f = .ok ts → ts = postSubsP w s q f := by
  intro fuel
  induction fuel with
  | zero =>
    intro f q ts hle h
    cases f with
    | nil => simp only [postSubs] at h; cases h; rfl
    | cons n c rest =>
      cases c with
      | mk cm cf => simp only [forestSize] at hle; omega
  | succ fuel ih =>
    intro f q ts hle h
    cases f with
    | nil => simp only [postSubs] at h; cases h; rfl
    | cons n c rest =>
      cases c with
      | mk cm cf =>
        simp only [forestSize] at hle
        have hcf : forestSize cf ≤ fuel := by omega
        have hrest : forestSize rest ≤ fuel := by omega
        simp only [postSubs, postSubsP] at h ⊢
        by_cases hg : (cm.is_dir_follow && !cm.readlink_ok) = true
        · rw [if_pos hg] at h
          rw [if_pos hg]
          cases h1 : postSubs w s (q ++ [n]) cf with
          | error e => rw [h1] at h; cases h
          | ok subs =>
            rw [h1] at h
            cases hy : postYield w s (q ++ [n]) cm.st_size (forestMetas cf) with
            | error e => rw [hy] at h; cases h
            | ok y =>
              rw [hy] at h
              cases h2 : postSubs w s q rest with
              | error e => rw [h2] at h; cases h
              | ok rs =>
                rw [h2] at h
                cases h
                rw [ih cf _ _ hcf h1, postYield_ok w s _ _ _ _ hy, ih rest _ _ hrest h2]
        · rw [if_neg hg] at h
          rw [if_neg hg]
          exact ih rest q ts hrest h

theorem postSubs_ok (w s : Bool) (q : List String) (f : Forest) (ts : List Task)
    (h : postSubs w s q f = .ok ts) : ts = postSubsP w s q f :=
  postSubs_ok_aux w s (forestSize f) f q ts le_rfl h

theorem parallel_post_order_apply_ok (w s : Bool) (r : List String) (nd : Node)
    (ts : List Task) (h : parallel_post_order_apply w s r nd = .ok ts) :
    ts = parallel_post_order_applyP w s r nd := by
  cases nd with
  | mk m f =>
    simp only [parallel_post_order_apply, parallel_post_order_applyP] at h ⊢
    cases h1 : postSubs w s r f with
    | error e => rw [h1] at h; cases h
    | ok subs =>
      rw [h1] at h
      cases hy : postYield w s r m.st_size (forestMetas f) with
      | error e => rw [hy] at h; cases h
      | ok y =>
        rw [hy] at h
        cases h
        rw [postSubs_ok w s _ _ _ h1, postYield_ok w s _ _ _ _ hy]

/-! ## Forest induction and membership helpers -/

theorem forest_deep_ind (motive : Forest → Prop) (h0 : motive .nil)
    (h1 : ∀ n cm cf rest, motive cf → motive rest →
      motive (.cons n (.mk cm cf) rest)) :
    ∀ f, motive f := by
  have key : ∀ fuel f, forestSize f ≤ fuel → motive f := by
    intro fuel
    induction fuel with
    | zero =>
      intro f hle
      cases f with
      | nil => exact h0
      | cons n c rest =>
        cases c with
        | mk cm cf => simp only [forestSize] at hle; omega
    | succ fuel ih =>
      intro f hle
      cases f with
      | nil => exact h0
      | cons n c rest =>
        cases c with
        | mk cm cf =>
          simp only [forestSize] at hle
          exact h1 n cm cf rest (ih cf (by omega)) (ih rest (by omega))
  intro f
  exact key (forestSize f) f le_rfl

theorem mem_forestMetas_of_entries :
    ∀ (f : Forest), ∀ (n : String) (c : Node), (n, c) ∈ forestEntries f →
      (n, c.meta) ∈ forestMetas f := by
  intro f
  induction f using forest_deep_ind with
  | h0 => intro n c h; simp [forestEntries] at h
  | h1 n0 cm0 cf0 rest ihcf ih =>
    intro n c h
    simp only [forestEntries, List.mem_cons] at h
    rcases h with h | h
    · obtain ⟨h1, h2⟩ := Prod.mk.injEq .. ▸ h
      simp [forestMetas, h1, h2]
    · simp [forestMetas, ih n c h]

theorem mem_forestNames_of_entries :
    ∀ (f : Forest), ∀ (n : String) (c : Node), (n, c) ∈ forestEntries f →
      n ∈ forestNames f := by
  intro f
  induction f using forest_deep_ind with
  | h0 => intro n c h; simp [forestEntries] at h
  | h1 n0 cm0 cf0 rest ihcf ih =>
    intro n c h
    simp only [forestEntries, List.mem_cons] at h
    rcases h with h | h
    · obtain ⟨h1, _⟩ := Prod.mk.injEq .. ▸ h
      simp [forestNames, h1]
    · simp [forestNames, ih n c h]

theorem allMetas_of_entries (p : Meta → Bool) :
    ∀ (f : Forest), ∀ (n : String) (cm : Meta) (cf : Forest),
      allMetas p f = true → (n, Node.mk cm cf) ∈ forestEntries f →
      p cm = true ∧ allMetas p cf = true := by
  intro f
  induction f using forest_deep_ind with
  | h0 => intro n cm cf _ h; simp [forestEntries] at h
  | h1 n0 m0 f0 rest ihcf ih =>
    intro n cm cf hall h
    simp only [allMetas, Bool.and_eq_true] at hall
    simp only [forestEntries, List.mem_cons] at h
    rcases h with h | h
    · obtain ⟨_, h2⟩ := Prod.mk.injEq .. ▸ h
      cases h2
      exact ⟨hall.1.1, hall.1.2⟩
    · exact ih n cm cf hall.2 h

theorem postYieldP_mem (w s : Bool) (q : List String) (sz : Nat)
    (cs : List (String × Meta)) (t : Task) (ht : t ∈ postYieldP w s q sz cs) :
    (∃ p : String × Meta,
      p ∈ cs.filter (fun x => !x.2.is_dir_follow) ++
        (cs.filter (fun x => x.2.is_dir_follow)).filter (fun x => !isDirClass w x.2) ∧
      t = Task.mk (q ++ [p.1]) false [] p.2.st_size) ∨
    t = Task.mk q true (if s then childDepsP w q cs else []) sz := by
  simp only [postYieldP, List.mem_append, List.mem_map, List.mem_singleton] at ht
  rcases ht with ⟨p, hp, rfl⟩ | rfl
  · exact Or.inl ⟨p, List.mem_append.2 hp, rfl⟩
  · exact Or.inr rfl

theorem childDepsP_mem_dir (w : Bool) (q : List String) (cs : List (String × Meta))
    (n : String) (m : Meta) (hm : (n, m) ∈ cs) (hdf : m.is_dir_follow = true)
    (hdc : isDirClass w m = true) : (q ++ [n]) ∈ childDepsP w q cs := by
  simp only [childDepsP, List.mem_append, List.mem_map]
  exact Or.inl ⟨(n, m), by simp [List.mem_filter, hm, hdf, hdc], rfl⟩

theorem childDepsP_mem_file (w : Bool) (q : List String) (cs : List (String × Meta))
    (p : String × Meta)
    (hp : p ∈ cs.filter (fun x => !x.2.is_dir_follow) ++
      (cs.filter (fun x => x.2.is_dir_follow)).filter (fun x => !isDirClass w x.2)) :
    (q ++ [p.1]) ∈ childDepsP w q cs := by
  simp only [childDepsP, List.mem_append, List.mem_map]
  rcases List.mem_append.1 hp with h | h
  · exact Or.inr ⟨p, Or.inl h, rfl⟩
  · exact Or.inr ⟨p, Or.inr h, rfl⟩

theorem postSubsP_take (w s : Bool) :
    ∀ f, ∀ (q : List String) (t : Task), t ∈ postSubsP w s q f →
      ∃ n cm cf, (n, Node.mk cm cf) ∈ forestEntries f ∧
        (cm.is_dir_follow && !cm.readlink_ok) = true ∧
        t.path.take (q.length + 1) = q ++ [n] ∧ q.length + 1 ≤ t.path.length := by
  intro f
  induction f using forest_deep_ind with
  | h0 => intro q t ht; simp [postSubsP] at ht
  | h1 n cm cf rest ihcf ihrest =>
    intro q t ht
    simp only [postSubsP] at ht
    by_cases hg : (cm.is_dir_follow && !cm.readlink_ok) = true
    · rw [if_pos hg] at ht
      rcases List.mem_append.1 ht with ht1 | hrs
      · rcases List.mem_append.1 ht1 with hsub | hy
        · obtain ⟨c, ccm, ccf, _, _, htake, hlen⟩ := ihcf (q ++ [n]) t hsub
          have hq1 : (q ++ [n]).length = q.length + 1 := by simp
          refine ⟨n, cm, cf, by simp [forestEntries], hg, ?_, ?_⟩
          · have h2 : t.path.take (q.length + 1) =
                (t.path.take ((q ++ [n]).length + 1)).take (q.length + 1) := by
              rw [List.take_take]
              congr 1
              omega
            rw [h2, htake, List.take_append_of_le_length (by omega)]
            rw [← hq1, List.take_length]
          · omega
        · rcases postYieldP_mem w s (q ++ [n]) cm.st_size (forestMetas cf) t hy with
            ⟨p, _, rfl⟩ | rfl
          · have hq1 : (q ++ [n]).length = q.length + 1 := by simp
            refine ⟨n, cm, cf, by simp [forestEntries], hg, ?_, by simp⟩
            show ((q ++ [n]) ++ [p.1]).take (q.length + 1) = q ++ [n]
            rw [List.take_append_of_le_length (by omega), ← hq1, List.take_length]
          · have hq1 : (q ++ [n]).length = q.length + 1 := by simp
            refine ⟨n, cm, cf, by simp [forestEntries], hg, ?_, by simp⟩
            show (q ++ [n]).take (q.length + 1) = q ++ [n]
            rw [← hq1, List.take_length]
      · obtain ⟨n', cm', cf', hmem, hw, htake, hlen⟩ := ihrest q t hrs
        exact ⟨n', cm', cf',
          by simp only [forestEntries, List.mem_cons]; exact Or.inr hmem,
          hw, htake, hlen⟩
    · rw [if_neg hg] at ht
      obtain ⟨n', cm', cf', hmem, hw, htake, hlen⟩ := ihrest q t ht
      exact ⟨n', cm', cf',
        by simp only [forestEntries, List.mem_cons]; exact Or.inr hmem,
        hw, htake, hlen⟩

theorem postSubsP_depth1 (w : Bool) :
    ∀ f, ∀ (q : List String) (t : Task), t ∈ postSubsP w true q f →
      t.path.length = q.length + 1 →
      t.isDirOp = true ∧ ∃ n cm cf, (n, Node.mk cm cf) ∈ forestEntries f ∧
        (cm.is_dir_follow && !cm.readlink_ok) = true ∧ t.path = q ++ [n] ∧
        t.deps = childDepsP w (q ++ [n]) (forestMetas cf) := by
  intro f
  induction f using forest_deep_ind with
  | h0 => intro q t ht _; simp [postSubsP] at ht
  | h1 n cm cf rest ihcf ihrest =>
    intro q t ht hlen
    simp only [postSubsP] at ht
    by_cases hg : (cm.is_dir_follow && !cm.readlink_ok) = true
    · rw [if_pos hg] at ht
      rcases List.mem_append.1 ht with ht1 | hrs
      · rcases List.mem_append.1 ht1 with hsub | hy
        · exfalso
          obtain ⟨_, _, _, _, _, _, hl⟩ := postSubsP_take w true cf (q ++ [n]) t hsub
          simp only [List.length_append, List.length_cons, List.length_nil] at hl
          omega
        · rcases postYieldP_mem w true (q ++ [n]) cm.st_size (forestMetas cf) t hy with
            ⟨p, _, rfl⟩ | rfl
          · exfalso
            simp only [List.length_append, List.length_cons, List.length_nil] at hlen
            omega
          · refine ⟨rfl, n, cm, cf, by simp [forestEntries], hg, rfl, by simp⟩
      · obtain ⟨hd, n', cm', cf', hmem, hw, hpath, hdeps⟩ := ihrest q t hrs hlen
        exact ⟨hd, n', cm', cf',
          by simp only [forestEntries, List.mem_cons]; exact Or.inr hmem,
          hw, hpath, hdeps⟩
    · rw [if_neg hg] at ht
      obtain ⟨hd, n', cm', cf', hmem, hw, hpath, hdeps⟩ := ihrest q t ht hlen
      exact ⟨hd, n', cm', cf',
        by simp only [forestEntries, List.mem_cons]; exact Or.inr hmem,
        hw, hpath, hdeps⟩

theorem take_shrink (l big : List String) (c : String)
    (h : l.take (big.length + 1) = big ++ [c]) : l.take big.length = big := by
  have h2 : l.take big.length = (l.take (big.length + 1)).take big.length := by
    rw [List.take_take]
    congr 1
    omega
  rw [h2, h, List.take_append_of_le_length le_rfl, List.take_length]

theorem postSubsP_child_dep (w : Bool) :
    ∀ f, ∀ q : List String,
      allMetas (coherent w) f = true → nodupDeep f = true →
      ∀ tp ∈ postSubsP w true q f, tp.isDirOp = true →
      ∀ tc ∈ postSubsP w true q f, ∀ m : String, tc.path = tp.path ++ [m] →
      tc.path ∈ tp.deps := by
  intro f
  induction f using forest_deep_ind with
  | h0 => intro q _ _ tp htp _ tc htc m hrel; simp [postSubsP] at htp
  | h1 n cm cf rest ihcf ihrest =>
    intro q hall hnd tp htp hdirop tc htc m hrel
    simp only [allMetas, Bool.and_eq_true] at hall
    obtain ⟨⟨hco_cm, hall_cf⟩, hall_rest⟩ := hall
    simp only [nodupDeep, Bool.and_eq_true] at hnd
    obtain ⟨⟨hnd1, hnd_cf⟩, hnd_rest⟩ := hnd
    have hnotin : n ∉ forestNames rest := by simpa using hnd1
    have hpfx : ∀ (t1p t2p : List String) (mm : String), t2p = t1p ++ [mm] →
        q.length + 1 ≤ t1p.length →
        t2p.take (q.length + 1) = t1p.take (q.length + 1) := by
      intro t1p t2p mm h hl
      rw [h, List.take_append_of_le_length hl]
    have hne : ∀ n', n' ∈ forestNames rest → q ++ [n] = q ++ [n'] → False := by
      intro n' hn' heq
      have : n = n' := by simpa using List.append_cancel_left heq
      exact absurd (this ▸ hn') hnotin
    simp only [postSubsP] at htp htc
    by_cases hg : (cm.is_dir_follow && !cm.readlink_ok) = true
    case neg =>
      rw [if_neg hg] at htp htc
      exact ihrest q hall_rest hnd_rest tp htp hdirop tc htc m hrel
    case pos =>
    rw [if_pos hg] at htp htc
    have factA : ∀ t : Task, t ∈ postSubsP w true (q ++ [n]) cf →
        t.path.take (q.length + 1) = q ++ [n] ∧ q.length + 2 ≤ t.path.length := by
      intro t htA
      obtain ⟨c, ccm, ccf, _, _, htake, hlen⟩ :=
        postSubsP_take w true cf (q ++ [n]) t htA
      constructor
      · have h1 := take_shrink t.path (q ++ [n]) c htake
        calc t.path.take (q.length + 1)
            = t.path.take ((q ++ [n]).length) := by congr 1; simp
          _ = q ++ [n] := h1
      · simp only [List.length_append, List.length_cons, List.length_nil] at hlen
        omega
    have factB : ∀ t : Task, t ∈ postSubsP w true q rest →
        (∃ n', n' ∈ forestNames rest ∧ t.path.take (q.length + 1) = q ++ [n']) ∧
          q.length + 1 ≤ t.path.length := by
      intro t htB
      obtain ⟨n', cm', cf', hmem, _, htake, hlen⟩ :=
        postSubsP_take w true rest q t htB
      exact ⟨⟨n', mem_forestNames_of_entries rest n' _ hmem, htake⟩, hlen⟩
    have factY : ∀ t : Task,
        t ∈ postYieldP w true (q ++ [n]) cm.st_size (forestMetas cf) →
        t.path.take (q.length + 1) = q ++ [n] := by
      intro t htY
      rcases postYieldP_mem w true _ _ _ t htY with ⟨p, _, rfl⟩ | rfl
      · show ((q ++ [n]) ++ [p.1]).take (q.length + 1) = q ++ [n]
        rw [show q.length + 1 = (q ++ [n]).length from by simp,
          List.take_append_of_le_length le_rfl, List.take_length]
      · show (q ++ [n]).take (q.length + 1) = q ++ [n]
        rw [show q.length + 1 = (q ++ [n]).length from by simp, List.take_length]
    rcases List.mem_append.1 htp with htp1 | htpB
    · rcases List.mem_append.1 htp1 with htpA | htpY
      · -- tp in the walked subtree
        rcases List.mem_append.1 htc with htc1 | htcB
        · rcases List.mem_append.1 htc1 with htcA | htcY
          · exact ihcf (q ++ [n]) hall_cf hnd_cf tp htpA hdirop tc htcA m hrel
          · exfalso
            obtain ⟨_, hlenA⟩ := factA tp htpA
            have hlc : tc.path.length = tp.path.length + 1 := by rw [hrel]; simp
            rcases postYieldP_mem w true _ _ _ tc htcY with ⟨p, _, rfl⟩ | rfl
            · simp only [List.length_append, List.length_cons, List.length_nil] at hlc
              omega
            · simp only [List.length_append, List.length_cons, List.length_nil] at hlc
              omega
        · exfalso
          obtain ⟨htakeA, hlenA⟩ := factA tp htpA
          obtain ⟨⟨n', hn', htake2⟩, _⟩ := factB tc htcB
          have heq := hpfx tp.path tc.path m hrel (by omega)
          rw [htake2, htakeA] at heq
          exact hne n' hn' heq.symm
      · -- tp is a task of the walked child's yield
        rcases postYieldP_mem w true _ _ _ tp htpY with ⟨p, _, rfl⟩ | rfl
        · exact absurd hdirop (by simp)
        · -- tp is the walked child's dir task
          rcases List.mem_append.1 htc with htc1 | htcB
          · rcases List.mem_append.1 htc1 with htcA | htcY
            · have hlen1 : tc.path.length = (q ++ [n]).length + 1 := by
                rw [hrel]; simp
              obtain ⟨_, c, ccm, ccf, hcmem, hcw, hcpath, _⟩ :=
                postSubsP_depth1 w cf (q ++ [n]) tc htcA hlen1
              obtain ⟨hco, _⟩ :=
                allMetas_of_entries (coherent w) cf c ccm ccf hall_cf hcmem
              have hcoeq : isDirClass w ccm = (ccm.is_dir_follow && !ccm.readlink_ok) := by
                unfold coherent at hco
                exact beq_iff_eq.1 hco
              have hdc : isDirClass w ccm = true := by rw [hcoeq]; exact hcw
              have hdf : ccm.is_dir_follow = true := by
                have h := hcw
                simp only [Bool.and_eq_true] at h
                exact h.1
              have hmm : (c, ccm) ∈ forestMetas cf := by
                have := mem_forestMetas_of_entries cf c (Node.mk ccm ccf) hcmem
                simpa [Node.meta] using this
              rw [hcpath]
              simpa using childDepsP_mem_dir w (q ++ [n]) (forestMetas cf) c ccm hmm hdf hdc
            · rcases postYieldP_mem w true _ _ _ tc htcY with ⟨p2, hp2, rfl⟩ | rfl
              · simpa using childDepsP_mem_file w (q ++ [n]) (forestMetas cf) p2 hp2
              · exfalso
                have := congrArg List.length hrel
                simp at this
          · exfalso
            obtain ⟨⟨n', hn', htake2⟩, _⟩ := factB tc htcB
            have hl : q.length + 1 ≤ (Task.mk (q ++ [n]) true
                (if true = true then childDepsP w (q ++ [n]) (forestMetas cf) else [])
                cm.st_size).path.length := by simp
            have heq := hpfx _ tc.path m hrel hl
            rw [htake2] at heq
            have htpr : (Task.mk (q ++ [n]) true
                (if true = true then childDepsP w (q ++ [n]) (forestMetas cf) else [])
                cm.st_size).path.take (q.length + 1) = q ++ [n] := by
              show (q ++ [n]).take (q.length + 1) = q ++ [n]
              rw [show q.length + 1 = (q ++ [n]).length from by simp, List.take_length]
            rw [htpr] at heq
            exact hne n' hn' heq.symm
    · -- tp among the later siblings
      rcases List.mem_append.1 htc with htc1 | htcB
      · rcases List.mem_append.1 htc1 with htcA | htcY
        · exfalso
          obtain ⟨⟨n', hn', htakeP⟩, hlenP⟩ := factB tp htpB
          obtain ⟨htakeC, _⟩ := factA tc htcA
          have heq := hpfx tp.path tc.path m hrel hlenP
          rw [htakeC, htakeP] at heq
          exact hne n' hn' heq
        · exfalso
          obtain ⟨⟨n', hn', htakeP⟩, hlenP⟩ := factB tp htpB
          have htakeC := factY tc htcY
          have heq := hpfx tp.path tc.path m hrel hlenP
          rw [htakeC, htakeP] at heq
          exact hne n' hn' heq
      · exact ihrest q hall_rest hnd_rest tp htpB hdirop tc htcB m hrel

theorem postApplyP_child_dep (w : Bool) (r : List String) (m0 : Meta) (f : Forest)
    (hall : allMetas (coherent w) f = true) (hnd : nodupDeep f = true)
    (tp : Task) (htp : tp ∈ parallel_post_order_applyP w true r (.mk m0 f))
    (hdirop : tp.isDirOp = true)
    (tc : Task) (htc : tc ∈ parallel_post_order_applyP w true r (.mk m0 f))
    (m : String) (hrel : tc.path = tp.path ++ [m]) :
    tc.path ∈ tp.deps := by
  simp only [parallel_post_order_applyP] at htp htc
  rcases List.mem_append.1 htp with htpS | htpY
  · rcases List.mem_append.1 htc with htcS | htcY
    · exact postSubsP_child_dep w f r hall hnd tp htpS hdirop tc htcS m hrel
    · exfalso
      obtain ⟨_, _, _, _, _, _, hlenP⟩ := postSubsP_take w true f r tp htpS
      have hlc : tc.path.length = tp.path.length + 1 := by rw [hrel]; simp
      rcases postYieldP_mem w true r m0.st_size (forestMetas f) tc htcY with
        ⟨p, _, rfl⟩ | rfl
      · simp only [List.length_append, List.length_cons, List.length_nil] at hlc
        omega
      · simp only [List.length_append, List.length_cons, List.length_nil] at hlc
        omega
  · rcases postYieldP_mem w true r m0.st_size (forestMetas f) tp htpY with
      ⟨p, _, rfl⟩ | rfl
    · exact absurd hdirop (by simp)
    · rcases List.mem_append.1 htc with htcS | htcY
      · have hlen1 : tc.path.length = r.length + 1 := by rw [hrel]; simp
        obtain ⟨_, c, ccm, ccf, hcmem, hcw, hcpath, _⟩ :=
          postSubsP_depth1 w f r tc htcS (by simpa using hlen1)
        obtain ⟨hco, _⟩ := allMetas_of_entries (coherent w) f c ccm ccf hall hcmem
        have hcoeq : isDirClass w ccm = (ccm.is_dir_follow && !ccm.readlink_ok) := by
          unfold coherent at hco
          exact beq_iff_eq.1 hco
        have hdc : isDirClass w ccm = true := by rw [hcoeq]; exact hcw
        have hdf : ccm.is_dir_follow = true := by
          have h := hcw
          simp only [Bool.and_eq_true] at h
          exact h.1
        have hmm : (c, ccm) ∈ forestMetas f := by
          have := mem_forestMetas_of_entries f c (Node.mk ccm ccf) hcmem
          simpa [Node.meta] using this
        rw [hcpath]
        simpa using childDepsP_mem_dir w r (forestMetas f) c ccm hmm hdf hdc
      · rcases postYieldP_mem w true r m0.st_size (forestMetas f) tc htcY with
          ⟨p2, hp2, rfl⟩ | rfl
        · simpa using childDepsP_mem_file w r (forestMetas f) p2 hp2
        · exfalso
          have := congrArg List.length hrel
          simp at this

/-- Claim C3: with `pre_order=False` and `strict_hierarchical_order=True`,
on a coherent listing with distinct sibling names, every child task of a
directory (the re-categorised `dirnames` children included) has its path in
the directory's `dir_func` task dependency set, so in every execution the
executor can produce, the child's op completes strictly before the parent
directory's `dir_func` starts. -/
theorem c3_postorder_strict (win32 : Bool) (r : List String) (m0 : Meta)
    (f : Forest)
    (hall : allMetas (coherent win32) f = true) (hnd : nodupDeep f = true)
    (ts : List Task)
    (hgen : parallel_post_order_apply win32 true r (.mk m0 f) = .ok ts)
    (tp tc : Task) (hp : tp ∈ ts) (hpd : tp.isDirOp = true) (hc : tc ∈ ts)
    (nm : String) (hrel : tc.path = tp.path ++ [nm])
    (e : ExecTimes) (he : ValidExec ts e) :
    tc.path ∈ tp.deps ∧ e.opEnd tc.path < e.opStart tp.path := by
  obtain rfl := parallel_post_order_apply_ok win32 true r (.mk m0 f) ts hgen
  have hdep := postApplyP_child_dep win32 r m0 f hall hnd tp hp hpd tc hc nm hrel
  refine ⟨hdep, ?_⟩
  have h1 := he.2 tp hp tc.path hdep
  have h2 := (he.1 tc hc).2
  omega

/-- Witness for C3: the two-entry tree `tRootA`, post-order, with the
explicit schedule `eTimesPost`. -/
theorem c3_witness :
    ["r", "a"] ∈ (Task.mk ["r"] true [["r", "a"]] (0 : Nat)).deps ∧
      eTimesPost.opEnd ["r", "a"] < eTimesPost.opStart ["r"] :=
  c3_postorder_strict false ["r"] mDir (.cons "a" (.mk mFile .nil) .nil)
    (by decide) (by decide)
    [Task.mk ["r", "a"] false [] 7, Task.mk ["r"] true [["r", "a"]] 0]
    (by decide)
    (Task.mk ["r"] true [["r", "a"]] 0) (Task.mk ["r", "a"] false [] 7)
    (by decide) rfl (by decide) "a" rfl eTimesPost (by decide)

/-! ## Claim C4: descent is gated by the classifier -/

/-- Counterexample to C4 as universally stated: a symlink-to-directory
root passes the `os.path.isdir` dispatch, `os.walk` reads the root's
listing through the link, and its child `a` (reachable only through the
link) is visited — even though the classifier calls the root `SYMLINK`. -/
theorem c4_counterexample :
    FileType.from_path false tLinkRoot.meta = .ok .SYMLINK ∧
    parallel_pre_order_apply false true ["r"] tLinkRoot =
      .ok [Task.mk ["r"] true [] 0, Task.mk ["r", "a"] false [["r"]] 7] ∧
    parallel_recursive_apply false true true ["r"] tLinkRoot 0 moduleInit =
      .ok ⟨1, 1, 7, 0⟩ := by
  refine ⟨by decide, by decide, by decide⟩

theorem mem_forestEntries_of_metas :
    ∀ (f : Forest) (n : String) (m : Meta), (n, m) ∈ forestMetas f →
      ∃ cf, (n, Node.mk m cf) ∈ forestEntries f := by
  intro f
  induction f using forest_deep_ind with
  | h0 => intro n m h; simp [forestMetas] at h
  | h1 n0 m0 f0 rest ihcf ih =>
    intro n m h
    simp only [forestMetas, Node.meta, List.mem_cons] at h
    rcases h with h | h
    · obtain ⟨h1, h2⟩ := Prod.mk.injEq .. ▸ h
      exact ⟨f0, by simp [forestEntries, h1, h2]⟩
    · obtain ⟨cf, hcf⟩ := ih n m h
      exact ⟨cf, by simp only [forestEntries, List.mem_cons]; exact Or.inr hcf⟩

theorem entryOk_lift (w isD : Bool) (f : Forest) (n : String) (cm : Meta)
    (cf : Forest) (hmem : (n, Node.mk cm cf) ∈ forestEntries f)
    (hdc : isDirClass w cm = true) (s : List String)
    (hs : entryOk w isD cf s = true) : entryOk w isD f (n :: s) = true := by
  cases s with
  | nil => simp [entryOk] at hs
  | cons m rest =>
    simp only [entryOk, List.any_eq_true]
    exact ⟨(n, Node.mk cm cf), hmem, by
      simp [Node.meta, Node.children, hdc, hs]⟩

theorem entryOk_single_file (w : Bool) (f : Forest) (n : String) :
    entryOk w false f [n] = true := by
  simp [entryOk]

theorem entryOk_single_dir (w : Bool) (f : Forest) (n : String) (cm : Meta)
    (cf : Forest) (hmem : (n, Node.mk cm cf) ∈ forestEntries f)
    (hdc : isDirClass w cm = true) : entryOk w true f [n] = true := by
  simp only [entryOk, Bool.not_true, Bool.false_or, List.any_eq_true]
  exact ⟨(n, Node.mk cm cf), hmem, by simp [Node.meta, hdc]⟩

theorem entryOk_cons_tail (w isD : Bool) (n0 : String) (c0 : Node) (rest : Forest)
    (s : List String) (h : entryOk w isD rest s = true) :
    entryOk w isD (.cons n0 c0 rest) s = true := by
  cases s with
  | nil => simp [entryOk] at h
  | cons m tail =>
    cases tail with
    | nil =>
      simp only [entryOk, Bool.or_eq_true] at h ⊢
      rcases h with h | h
      · exact Or.inl h
      · simp only [List.any_eq_true] at h ⊢
        obtain ⟨p, hp, hcond⟩ := h
        exact Or.inr ⟨p, by simp only [forestEntries, List.mem_cons]; exact Or.inr hp, hcond⟩
    | cons m2 tail2 =>
      simp only [entryOk, List.any_eq_true] at h ⊢
      obtain ⟨p, hp, hcond⟩ := h
      exact ⟨p, by simp only [forestEntries, List.mem_cons]; exact Or.inr hp, hcond⟩

theorem preBodyP_entryOk (w s : Bool) (q : List String) (f : Forest) (t : Task)
    (ht : t ∈ preBodyP w s q (forestMetas f)) :
    ∃ nm, t.path = q ++ [nm] ∧ entryOk w t.isDirOp f [nm] = true := by
  simp only [preBodyP, List.mem_append, List.mem_map] at ht
  rcases ht with ⟨p, hp, rfl⟩ | ⟨p, hp, rfl⟩
  · obtain ⟨hp1, hdc⟩ := List.mem_filter.1 hp
    obtain ⟨hpm, _⟩ := List.mem_filter.1 hp1
    obtain ⟨cf, hcf⟩ := mem_forestEntries_of_metas f p.1 p.2 hpm
    exact ⟨p.1, rfl, entryOk_single_dir w f p.1 p.2 cf hcf hdc⟩
  · exact ⟨p.1, rfl, entryOk_single_file w f p.1⟩

theorem preSubsP_entryOk (w s : Bool) :
    ∀ f, ∀ (q : List String), ∀ t ∈ preSubsP w s q f,
      ∃ sfx, t.path = q ++ sfx ∧ entryOk w t.isDirOp f sfx = true := by
  intro f
  induction f using forest_deep_ind with
  | h0 => intro q t ht; simp [preSubsP] at ht
  | h1 n cm cf rest ihcf ihrest =>
    intro q t ht
    simp only [preSubsP] at ht
    by_cases hg : (cm.is_dir_follow && isDirClass w cm) = true
    · rw [if_pos hg] at ht
      have hdc : isDirClass w cm = true := by
        have h := hg
        simp only [Bool.and_eq_true] at h
        exact h.2
      have hmem : (n, Node.mk cm cf) ∈ forestEntries (.cons n (.mk cm cf) rest) := by
        simp [forestEntries]
      rcases List.mem_append.1 ht with ht1 | hrs
      · rcases List.mem_append.1 ht1 with hb | hsub
        · obtain ⟨nm, hpath, hok⟩ := preBodyP_entryOk w s (q ++ [n]) cf t hb
          refine ⟨n :: [nm], ?_, ?_⟩
          · rw [hpath]; simp
          · exact entryOk_lift w t.isDirOp _ n cm cf hmem hdc [nm] hok
        · obtain ⟨sfx, hpath, hok⟩ := ihcf (q ++ [n]) t hsub
          refine ⟨n :: sfx, ?_, ?_⟩
          · rw [hpath]; simp
          · exact entryOk_lift w t.isDirOp _ n cm cf hmem hdc sfx hok
      · obtain ⟨sfx, hpath, hok⟩ := ihrest q t hrs
        exact ⟨sfx, hpath, entryOk_cons_tail w t.isDirOp n (.mk cm cf) rest sfx hok⟩
    · rw [if_neg hg] at ht
      obtain ⟨sfx, hpath, hok⟩ := ihrest q t ht
      exact ⟨sfx, hpath, entryOk_cons_tail w t.isDirOp n (.mk cm cf) rest sfx hok⟩

theorem postSubsP_entryOk (w s : Bool) :
    ∀ f, ∀ (q : List String), allMetas (coherent w) f = true →
      ∀ t ∈ postSubsP w s q f,
      ∃ sfx, t.path = q ++ sfx ∧ entryOk w t.isDirOp f sfx = true := by
  intro f
  induction f using forest_deep_ind with
  | h0 => intro q _ t ht; simp [postSubsP] at ht
  | h1 n cm cf rest ihcf ihrest =>
    intro q hall t ht
    simp only [allMetas, Bool.and_eq_true] at hall
    obtain ⟨⟨hco_cm, hall_cf⟩, hall_rest⟩ := hall
    simp only [postSubsP] at ht
    by_cases hg : (cm.is_dir_follow && !cm.readlink_ok) = true
    · rw [if_pos hg] at ht
      have hdc : isDirClass w cm = true := by
        have hcoeq : isDirClass w cm = (cm.is_dir_follow && !cm.readlink_ok) := by
          unfold coherent at hco_cm
          exact beq_iff_eq.1 hco_cm
        rw [hcoeq]; exact hg
      have hmem : (n, Node.mk cm cf) ∈ forestEntries (.cons n (.mk cm cf) rest) := by
        simp [forestEntries]
      rcases List.mem_append.1 ht with ht1 | hrs
      · rcases List.mem_append.1 ht1 with hsub | hy
        · obtain ⟨sfx, hpath, hok⟩ := ihcf (q ++ [n]) hall_cf t hsub
          refine ⟨n :: sfx, by rw [hpath]; simp, ?_⟩
          exact entryOk_lift w t.isDirOp _ n cm cf hmem hdc sfx hok
        · rcases postYieldP_mem w s (q ++ [n]) cm.st_size (forestMetas cf) t hy with
            ⟨p, _, rfl⟩ | rfl
          · refine ⟨n :: [p.1], by simp, ?_⟩
            exact entryOk_lift w false _ n cm cf hmem hdc [p.1]
              (entryOk_single_file w cf p.1)
          · exact ⟨[n], rfl, entryOk_single_dir w _ n cm cf hmem hdc⟩
      · obtain ⟨sfx, hpath, hok⟩ := ihrest q hall_rest t hrs
        exact ⟨sfx, hpath, entryOk_cons_tail w t.isDirOp n (.mk cm cf) rest sfx hok⟩
    · rw [if_neg hg] at ht
      obtain ⟨sfx, hpath, hok⟩ := ihrest q hall_rest t ht
      exact ⟨sfx, hpath, entryOk_cons_tail w t.isDirOp n (.mk cm cf) rest sfx hok⟩

/-- Claim C4, amended for the root anomaly shown by `c4_counterexample`:
in both orders and both strictness modes, every task of the traversal of a
coherent tree either is the root's own task or sits at a suffix `sfx` below
the root such that every strictly intermediate entry on the chain is
classified `DIRECTORY` (so no entry classified `SYMLINK`, `JUNCTION` or
`WSL_SYMLINK` below the root is ever descended into, and nothing reachable
only through such a link is visited), and any `dir_func` task sits at an
entry classified `DIRECTORY` (links found under a directory are handed to
`file_func`). -/
theorem c4_amended (win32 strict : Bool) (r : List String) (m0 : Meta)
    (f : Forest) (hall : allMetas (coherent win32) f = true)
    (tsPre tsPost : List Task)
    (hpre : parallel_pre_order_apply win32 strict r (.mk m0 f) = .ok tsPre)
    (hpost : parallel_post_order_apply win32 strict r (.mk m0 f) = .ok tsPost) :
    (∀ t ∈ tsPre, t.path = r ∨
      ∃ sfx, t.path = r ++ sfx ∧ entryOk win32 t.isDirOp f sfx = true) ∧
    (∀ t ∈ tsPost, t.path = r ∨
      ∃ sfx, t.path = r ++ sfx ∧ entryOk win32 t.isDirOp f sfx = true) := by
  obtain rfl := parallel_pre_order_apply_ok win32 strict r (.mk m0 f) tsPre hpre
  obtain rfl := parallel_post_order_apply_ok win32 strict r (.mk m0 f) tsPost hpost
  constructor
  · intro t ht
    simp only [parallel_pre_order_applyP, List.mem_cons, List.mem_append] at ht
    rcases ht with rfl | hb | hs
    · exact Or.inl rfl
    · obtain ⟨nm, hpath, hok⟩ := preBodyP_entryOk win32 strict r f t hb
      exact Or.inr ⟨[nm], hpath, hok⟩
    · exact Or.inr (preSubsP_entryOk win32 strict f r t hs)
  · intro t ht
    simp only [parallel_post_order_applyP, List.mem_append] at ht
    rcases ht with hs | hy
    · exact Or.inr (postSubsP_entryOk win32 strict f r hall t hs)
    · rcases postYieldP_mem win32 strict r m0.st_size (forestMetas f) t hy with
        ⟨p, _, rfl⟩ | rfl
      · exact Or.inr ⟨[p.1], rfl, entryOk_single_file win32 f p.1⟩
      · exact Or.inl rfl

/-- Witness for the amended C4 on `tWithLink`: the link `L` below a
directory root receives only a `file_func` task and its target's content
`x` is never visited. -/
theorem c4_witness :
    (∀ t ∈ [Task.mk ["r"] true [] 0, Task.mk ["r", "L"] false [["r"]] 0],
      t.path = ["r"] ∨ ∃ sfx, t.path = ["r"] ++ sfx ∧
        entryOk false t.isDirOp
          (.cons "L" (.mk mLinkDir (.cons "x" (.mk mFile .nil) .nil)) .nil) sfx = true) ∧
    (∀ t ∈ [Task.mk ["r", "L"] false [] 0,
        Task.mk ["r"] true [["r", "L"]] 0],
      t.path = ["r"] ∨ ∃ sfx, t.path = ["r"] ++ sfx ∧
        entryOk false t.isDirOp
          (.cons "L" (.mk mLinkDir (.cons "x" (.mk mFile .nil) .nil)) .nil) sfx = true) :=
  c4_amended false true ["r"] mDir
    (.cons "L" (.mk mLinkDir (.cons "x" (.mk mFile .nil) .nil)) .nil)
    (by decide)
    [Task.mk ["r"] true [] 0, Task.mk ["r", "L"] false [["r"]] 0]
    [Task.mk ["r", "L"] false [] 0, Task.mk ["r"] true [["r", "L"]] 0]
    (by decide) (by decide)

/-! ## Claim C1: completeness and the shared counters -/

theorem plainForest_lexists (w : Bool) :
    ∀ f, plainForest w f = true → ∀ p ∈ forestMetas f, lexists p.2 = true := by
  intro f
  induction f using forest_deep_ind with
  | h0 => intro _ p hp; simp [forestMetas] at hp
  | h1 n cm cf rest ihcf ihrest =>
    intro hpl p hp
    simp only [plainForest, Bool.and_eq_true] at hpl
    simp only [forestMetas, Node.meta, List.mem_cons] at hp
    rcases hp with hp | hp
    · have : p.2 = cm := congrArg Prod.snd hp
      rw [this]
      exact hpl.1.1.1.1
    · exact ihrest hpl.2 p hp

theorem isNil_eq_nil (cf : Forest) (h : cf.isNil = true) : cf = .nil := by
  cases cf with
  | nil => rfl
  | cons n c rest => simp [Forest.isNil] at h

theorem plain_head_facts (w : Bool) (cm : Meta) (cf : Forest)
    (hco : coherent w cm = true) (hnd : (cf.isNil || isDirClass w cm) = true) :
    (cm.is_dir_follow && isDirClass w cm) = isDirClass w cm ∧
    (cm.is_dir_follow && !cm.readlink_ok) = isDirClass w cm ∧
    (isDirClass w cm = false → cf = .nil) := by
  have hcoeq : isDirClass w cm = (cm.is_dir_follow && !cm.readlink_ok) := by
    unfold coherent at hco
    exact beq_iff_eq.1 hco
  refine ⟨?_, hcoeq.symm, ?_⟩
  · cases hdc : isDirClass w cm
    · simp
    · rw [hdc] at hcoeq
      have hdf : cm.is_dir_follow = true := by
        cases hdf2 : cm.is_dir_follow
        · rw [hdf2] at hcoeq; simp at hcoeq
        · rfl
      simp [hdf]
  · intro hdc
    rw [hdc] at hnd
    simp only [Bool.or_false] at hnd
    exact isNil_eq_nil cf hnd

theorem preBodyP_paths (w s : Bool) (q : List String) (cs : List (String × Meta))
    (hlex : ∀ p ∈ cs, lexists p.2 = true) :
    List.Perm ((preBodyP w s q cs).map Task.path) (cs.map (fun p => q ++ [p.1])) := by
  have key : List.Perm
      ((cs.filter (fun p => p.2.is_dir_follow)).filter (fun p => isDirClass w p.2) ++
        (cs.filter (fun p => !p.2.is_dir_follow) ++
          (cs.filter (fun p => p.2.is_dir_follow)).filter (fun p => !isDirClass w p.2)))
      cs := by
    refine List.Perm.trans (List.Perm.append_left _ List.perm_append_comm) ?_
    rw [← List.append_assoc]
    refine List.Perm.trans
      (List.Perm.append_right _ (List.filter_append_perm _ _)) ?_
    exact List.filter_append_perm _ _
  have hfil : ((cs.filter (fun p => !p.2.is_dir_follow)) ++
      ((cs.filter (fun p => p.2.is_dir_follow)).filter
        (fun p => !isDirClass w p.2))).filter (fun p => lexists p.2) =
      (cs.filter (fun p => !p.2.is_dir_follow)) ++
      ((cs.filter (fun p => p.2.is_dir_follow)).filter
        (fun p => !isDirClass w p.2)) := by
    apply List.filter_eq_self.2
    intro p hp
    rcases List.mem_append.1 hp with h | h
    · exact hlex p (List.mem_filter.1 h).1
    · exact hlex p (List.mem_filter.1 (List.mem_filter.1 h).1).1
  have lhs_eq : (preBodyP w s q cs).map Task.path =
      ((cs.filter (fun p => p.2.is_dir_follow)).filter (fun p => isDirClass w p.2) ++
        (cs.filter (fun p => !p.2.is_dir_follow) ++
          (cs.filter (fun p => p.2.is_dir_follow)).filter
            (fun p => !isDirClass w p.2))).map (fun p => q ++ [p.1]) := by
    simp only [preBodyP]
    rw [hfil, List.map_append, List.map_append, List.map_append, List.map_append,
      List.map_append, List.map_map, List.map_map, List.map_map]
    rfl
  rw [lhs_eq]
  exact key.map _

theorem perm_block_swap {α : Type} (A B C : List α) :
    List.Perm (A ++ (B ++ C)) (B ++ (A ++ C)) := by
  rw [← List.append_assoc, ← List.append_assoc]
  exact List.Perm.append_right C List.perm_append_comm

theorem preSubsP_paths (w s : Bool) :
    ∀ f, ∀ q : List String, plainForest w f = true →
      List.Perm ((preBodyP w s q (forestMetas f) ++ preSubsP w s q f).map Task.path)
        (allPathsF q f) := by
  intro f
  induction f using forest_deep_ind with
  | h0 =>
    intro q _
    show List.Perm ((preBodyP w s q (forestMetas .nil) ++ preSubsP w s q .nil).map Task.path)
      (allPathsF q .nil)
    simp only [forestMetas, preSubsP, preBodyP, allPathsF, List.filter_nil,
      List.append_nil, List.map_nil]
    exact List.Perm.refl _
  | h1 n cm cf rest ihcf ihrest =>
    intro q hpl0
    have hpl := hpl0
    simp only [plainForest, Bool.and_eq_true] at hpl
    obtain ⟨⟨⟨⟨hok, hco⟩, hnil_dir⟩, hpl_cf⟩, hpl_rest⟩ := hpl
    obtain ⟨hgate_pre, _, hnil_of⟩ := plain_head_facts w cm cf hco hnil_dir
    have hlexAll := plainForest_lexists w _ hpl0
    have hbody := preBodyP_paths w s q
      (forestMetas (Forest.cons n (.mk cm cf) rest)) hlexAll
    simp only [forestMetas, Node.meta, List.map_cons] at hbody
    have hrest_lex := plainForest_lexists w rest hpl_rest
    have hRP := preBodyP_paths w s q (forestMetas rest) hrest_lex
    have hIHrest := ihrest q hpl_rest
    rw [List.map_append] at hIHrest
    have hRPY : List.Perm
        ((forestMetas rest).map (fun p => q ++ [p.1]) ++
          (preSubsP w s q rest).map Task.path)
        (allPathsF q rest) :=
      List.Perm.trans (List.Perm.append_right _ hRP.symm) hIHrest
    cases hdc : isDirClass w cm with
    | false =>
      have hcf : cf = .nil := hnil_of hdc
      subst hcf
      have hgate : (cm.is_dir_follow && isDirClass w cm) = false := by
        rw [hgate_pre, hdc]
      show List.Perm ((preBodyP w s q (forestMetas (Forest.cons n (.mk cm .nil) rest)) ++
          preSubsP w s q (Forest.cons n (.mk cm .nil) rest)).map Task.path)
        (allPathsF q (Forest.cons n (.mk cm .nil) rest))
      simp only [preSubsP, hgate, Bool.false_eq_true, if_false, allPathsF,
        List.map_append, List.nil_append]
      refine List.Perm.trans (List.Perm.append_right _ hbody) ?_
      simp only [List.cons_append]
      exact List.Perm.cons _ hRPY
    | true =>
      have hgate : (cm.is_dir_follow && isDirClass w cm) = true := by
        rw [hgate_pre, hdc]
      show List.Perm ((preBodyP w s q (forestMetas (Forest.cons n (.mk cm cf) rest)) ++
          preSubsP w s q (Forest.cons n (.mk cm cf) rest)).map Task.path)
        (allPathsF q (Forest.cons n (.mk cm cf) rest))
      simp only [preSubsP, hgate, if_true, allPathsF, List.map_append]
      have hIHcf := ihcf (q ++ [n]) hpl_cf
      rw [List.map_append] at hIHcf
      refine List.Perm.trans (List.Perm.append_right _ hbody) ?_
      simp only [List.cons_append]
      refine List.Perm.cons _ ?_
      rw [← List.append_assoc]
      refine List.Perm.trans ?_ (List.Perm.append hIHcf hRPY)
      have := perm_block_swap ((forestMetas rest).map (fun p => q ++ [p.1]))
        ((preBodyP w s (q ++ [n]) (forestMetas cf)).map Task.path ++
          (preSubsP w s (q ++ [n]) cf).map Task.path)
        ((preSubsP w s q rest).map Task.path)
      rw [← List.append_assoc] at this
      exact this

theorem preApplyP_paths (w s : Bool) (r : List String) (m0 : Meta) (f : Forest)
    (hplain : plainForest w f = true) :
    List.Perm ((parallel_pre_order_applyP w s r (.mk m0 f)).map Task.path)
      (allPaths r (.mk m0 f)) := by
  show List.Perm ((Task.mk r true [] m0.st_size ::
      (preBodyP w s r (forestMetas f) ++ preSubsP w s r f)).map Task.path)
    (allPaths r (.mk m0 f))
  simp only [List.map_cons, allPaths]
  exact List.Perm.cons r (preSubsP_paths w s f r hplain)

theorem postYieldP_paths_eq (w s : Bool) (q : List String) (sz : Nat)
    (cs : List (String × Meta)) :
    (postYieldP w s q sz cs).map Task.path =
      ((cs.filter (fun p => !p.2.is_dir_follow)) ++
        ((cs.filter (fun p => p.2.is_dir_follow)).filter
          (fun p => !isDirClass w p.2))).map (fun p => q ++ [p.1]) ++ [q] := by
  simp only [postYieldP, List.map_append, List.map_map, List.map_cons, List.map_nil]
  rfl

theorem postP_paths (w s : Bool) :
    ∀ f, ∀ (q : List String) (sz : Nat), plainForest w f = true →
      List.Perm
        ((postSubsP w s q f ++ postYieldP w s q sz (forestMetas f)).map Task.path)
        (q :: allPathsF q f) := by
  intro f
  induction f using forest_deep_ind with
  | h0 =>
    intro q sz _
    show List.Perm ((postSubsP w s q .nil ++
        postYieldP w s q sz (forestMetas .nil)).map Task.path) (q :: allPathsF q .nil)
    simp only [postSubsP, forestMetas, postYieldP, List.filter_nil, allPathsF,
      List.nil_append, List.append_nil, List.map_nil, List.map_cons]
    exact List.Perm.refl _
  | h1 n cm cf rest ihcf ihrest =>
    intro q sz hpl0
    have hpl := hpl0
    simp only [plainForest, Bool.and_eq_true] at hpl
    obtain ⟨⟨⟨⟨hok, hco⟩, hnil_dir⟩, hpl_cf⟩, hpl_rest⟩ := hpl
    obtain ⟨_, hgate_post, hnil_of⟩ := plain_head_facts w cm cf hco hnil_dir
    have hIHrest := ihrest q sz hpl_rest
    rw [List.map_append] at hIHrest
    cases hdc : isDirClass w cm with
    | true =>
      have hdf : cm.is_dir_follow = true := by
        have h := hgate_post
        rw [hdc] at h
        simp only [Bool.and_eq_true] at h
        exact h.1
      have hgate : (cm.is_dir_follow && !cm.readlink_ok) = true := by
        rw [hgate_post, hdc]
      have hyield : (postYieldP w s q sz
          (forestMetas (Forest.cons n (.mk cm cf) rest))).map Task.path =
          (postYieldP w s q sz (forestMetas rest)).map Task.path := by
        rw [postYieldP_paths_eq, postYieldP_paths_eq]
        simp [forestMetas, Node.meta, List.filter_cons, hdf, hdc]
      have hIHcf := ihcf (q ++ [n]) cm.st_size hpl_cf
      rw [List.map_append] at hIHcf
      show List.Perm ((postSubsP w s q (Forest.cons n (.mk cm cf) rest) ++
          postYieldP w s q sz (forestMetas (Forest.cons n (.mk cm cf) rest))).map
            Task.path)
        (q :: allPathsF q (Forest.cons n (.mk cm cf) rest))
      simp only [postSubsP, hgate, if_true, allPathsF, List.map_append,
        hyield, List.append_assoc]
      rw [← List.append_assoc]
      refine List.Perm.trans (List.Perm.append hIHcf hIHrest) ?_
      simp only [List.cons_append]
      refine List.Perm.trans (List.Perm.cons _ List.perm_middle) ?_
      exact List.Perm.swap q (q ++ [n]) _
    | false =>
      have hcf : cf = .nil := hnil_of hdc
      subst hcf
      have hgate : (cm.is_dir_follow && !cm.readlink_ok) = false := by
        rw [hgate_post, hdc]
      have hyield : List.Perm
          ((postYieldP w s q sz
            (forestMetas (Forest.cons n (.mk cm .nil) rest))).map Task.path)
          ((q ++ [n]) :: (postYieldP w s q sz (forestMetas rest)).map Task.path) := by
        rw [postYieldP_paths_eq, postYieldP_paths_eq]
        cases hdf : cm.is_dir_follow with
        | true =>
          simp only [forestMetas, Node.meta, List.filter_cons, hdf, hdc,
            Bool.not_true, Bool.not_false, if_true, if_false, Bool.false_eq_true,
            List.map_append, List.map_cons]
          rw [List.append_assoc]
          simp only [List.cons_append]
          refine List.Perm.trans List.perm_middle ?_
          refine List.Perm.cons _ ?_
          rw [List.append_assoc]
        | false =>
          simp only [forestMetas, Node.meta, List.filter_cons, hdf, hdc,
            Bool.not_true, Bool.not_false, if_true, if_false, Bool.false_eq_true,
            List.map_append, List.map_cons]
          simp only [List.cons_append, List.append_assoc]
          exact List.Perm.refl _
      show List.Perm ((postSubsP w s q (Forest.cons n (.mk cm .nil) rest) ++
          postYieldP w s q sz (forestMetas (Forest.cons n (.mk cm .nil) rest))).map
            Task.path)
        (q :: allPathsF q (Forest.cons n (.mk cm .nil) rest))
      simp only [postSubsP, hgate, Bool.false_eq_true, if_false, allPathsF,
        List.map_append, List.nil_append]
      refine List.Perm.trans (List.Perm.append_left _ hyield) ?_
      refine List.Perm.trans List.perm_middle ?_
      refine List.Perm.trans (List.Perm.cons _ hIHrest) ?_
      exact List.Perm.swap q (q ++ [n]) _

theorem postApplyP_paths (w s : Bool) (r : List String) (m0 : Meta) (f : Forest)
    (hplain : plainForest w f = true) :
    List.Perm ((parallel_post_order_applyP w s r (.mk m0 f)).map Task.path)
      (allPaths r (.mk m0 f)) := by
  show List.Perm ((postSubsP w s r f ++
      postYieldP w s r m0.st_size (forestMetas f)).map Task.path)
    (r :: allPathsF r f)
  exact postP_paths w s f r m0.st_size hplain

theorem allPathsF_length : ∀ f (q : List String),
    (allPathsF q f).length = countForest f := by
  intro f
  induction f using forest_deep_ind with
  | h0 => intro q; simp [allPathsF, countForest]
  | h1 n cm cf rest ihcf ihrest =>
    intro q
    simp only [allPathsF, countForest, List.length_cons, List.length_append,
      ihcf, ihrest]
    omega

theorem runTasks_counts : ∀ (ts : List Task) (g : Globals),
    (runTasks ts g).num_done_files + (runTasks ts g).num_done_dirs =
      g.num_done_files + g.num_done_dirs + ts.length := by
  intro ts
  induction ts with
  | nil => intro g; simp [runTasks]
  | cons t rest ih =>
    intro g
    have hstep : runTasks (t :: rest) g = runTasks rest (bumpTask g t) := rfl
    rw [hstep, ih]
    cases hd : t.isDirOp <;> simp [bumpTask, hd] <;> omega

/-- Claim C1, amended: the shared counters are initialised once when the
module is imported (lines 71-73), not at each traversal start — `parallel_recursive_apply`
resets only `start_time` (line 294).  For a plain directory tree with N
entries, in either order and either strictness, the traversal runs exactly
one op per entry (the task paths are a permutation of the tree's entries)
and the counter sum *increases* by N; it therefore equals N only when the
counters still hold their module-import zeros (the process's first
traversal). -/
theorem c1_amended (win32 pre strict : Bool) (r : List String) (m0 : Meta)
    (f : Forest) (hplain : plainNode win32 (.mk m0 f) = true) (ts : List Task)
    (hgen : (if pre then parallel_pre_order_apply win32 strict r (.mk m0 f)
             else parallel_post_order_apply win32 strict r (.mk m0 f)) = .ok ts)
    (now : Nat) (g : Globals) :
    parallel_recursive_apply win32 pre strict r (.mk m0 f) now g =
      .ok (runTasks ts { g with start_time := now }) ∧
    List.Perm (ts.map Task.path) (allPaths r (.mk m0 f)) ∧
    ts.length = countNode (.mk m0 f) ∧
    (runTasks ts { g with start_time := now }).num_done_files +
        (runTasks ts { g with start_time := now }).num_done_dirs =
      g.num_done_files + g.num_done_dirs + countNode (.mk m0 f) := by
  have hplain' := hplain
  simp only [plainNode, Bool.and_eq_true] at hplain'
  obtain ⟨⟨⟨⟨hok, hco⟩, hdc⟩, hdf⟩, hplf⟩ := hplain'
  have h1 : parallel_recursive_apply win32 pre strict r (.mk m0 f) now g =
      .ok (runTasks ts { g with start_time := now }) := by
    unfold parallel_recursive_apply
    simp only [Node.meta, hdf, if_true]
    rw [hgen]
  have hperm : List.Perm (ts.map Task.path) (allPaths r (.mk m0 f)) := by
    cases pre with
    | true =>
      simp only [if_true] at hgen
      obtain rfl := parallel_pre_order_apply_ok win32 strict r (.mk m0 f) ts hgen
      exact preApplyP_paths win32 strict r m0 f hplf
    | false =>
      simp only [Bool.false_eq_true, if_false] at hgen
      obtain rfl := parallel_post_order_apply_ok win32 strict r (.mk m0 f) ts hgen
      exact postApplyP_paths win32 strict r m0 f hplf
  have hlen : ts.length = countNode (.mk m0 f) := by
    have hl := hperm.length_eq
    simp only [List.length_map] at hl
    rw [hl]
    show (allPaths r (.mk m0 f)).length = countNode (.mk m0 f)
    simp [allPaths, countNode, allPathsF_length]
    omega
  refine ⟨h1, hperm, hlen, ?_⟩
  rw [runTasks_counts]
  simp [hlen]

/-- Witness for the amended C1 on the two-entry tree `tRootA`. -/
theorem c1_witness :
    parallel_recursive_apply false true true ["r"]
        (.mk mDir (.cons "a" (.mk mFile .nil) .nil)) 5 moduleInit =
      .ok (runTasks [Task.mk ["r"] true [] 0, Task.mk ["r", "a"] false [["r"]] 7]
        { moduleInit with start_time := 5 }) ∧
    List.Perm
      ([Task.mk ["r"] true [] 0, Task.mk ["r", "a"] false [["r"]] 7].map Task.path)
      (allPaths ["r"] (.mk mDir (.cons "a" (.mk mFile .nil) .nil))) ∧
    [Task.mk ["r"] true [] 0, Task.mk ["r", "a"] false [["r"]] 7].length =
      countNode (.mk mDir (.cons "a" (.mk mFile .nil) .nil)) ∧
    (runTasks [Task.mk ["r"] true [] 0, Task.mk ["r", "a"] false [["r"]] 7]
        { moduleInit with start_time := 5 }).num_done_files +
      (runTasks [Task.mk ["r"] true [] 0, Task.mk ["r", "a"] false [["r"]] 7]
        { moduleInit with start_time := 5 }).num_done_dirs =
      moduleInit.num_done_files + moduleInit.num_done_dirs +
        countNode (.mk mDir (.cons "a" (.mk mFile .nil) .nil)) :=
  c1_amended false true true ["r"] mDir (.cons "a" (.mk mFile .nil) .nil)
    (by decide)
    [Task.mk ["r"] true [] 0, Task.mk ["r", "a"] false [["r"]] 7]
    (by decide) 5 moduleInit

/-- Counterexample to C1 as stated: the counters are not re-initialised at
traversal start, so after a second `parallel_recursive_apply` of the
one-entry tree `tRoot1` in the same process, `num_done_files +
num_done_dirs = 2 ≠ N = 1`. -/
theorem c1_counterexample :
    parallel_recursive_apply false true true ["r"] tRoot1 5 moduleInit =
      .ok ⟨0, 1, 0, 5⟩ ∧
    parallel_recursive_apply false true true ["r"] tRoot1 9 ⟨0, 1, 0, 5⟩ =
      .ok ⟨0, 2, 0, 9⟩ ∧
    (0 : Nat) + 2 ≠ countNode tRoot1 ∧ countNode tRoot1 = 1 :=
  ⟨by decide, by decide, by decide, by decide⟩

/-! ## Claim C9: width safety of the progress line -/

theorem wcwidthC_ge_one (c : Char) : 1 ≤ wcwidthC c := by
  unfold wcwidthC
  split <;> norm_num

theorem wcswidthL_append : ∀ a b : List Char,
    wcswidthL (a ++ b) = wcswidthL a + wcswidthL b := by
  intro a b
  induction a with
  | nil => simp [wcswidthL]
  | cons c rest ih =>
    show wcwidthC c + wcswidthL (rest ++ b) = wcwidthC c + wcswidthL rest + wcswidthL b
    rw [ih]
    ring

theorem wcswidthL_nonneg : ∀ s : List Char, 0 ≤ wcswidthL s := by
  intro s
  induction s with
  | nil => simp [wcswidthL]
  | cons c rest ih =>
    show 0 ≤ wcwidthC c + wcswidthL rest
    have := wcwidthC_ge_one c
    omega

theorem wcswidthL_reverse : ∀ s : List Char, wcswidthL s.reverse = wcswidthL s := by
  intro s
  induction s with
  | nil => rfl
  | cons c rest ih =>
    rw [List.reverse_cons, wcswidthL_append, ih]
    have h1 : wcswidthL [c] = wcwidthC c + 0 := rfl
    have h2 : wcswidthL (c :: rest) = wcwidthC c + wcswidthL rest := rfl
    rw [h1, h2]
    ring

theorem wcswidthL_replicate_space (k : Nat) :
    wcswidthL (List.replicate k ' ') = (k : Int) := by
  induction k with
  | zero => rfl
  | succ k ih =>
    show wcwidthC ' ' + wcswidthL (List.replicate k ' ') = ((k + 1 : Nat) : Int)
    rw [ih]
    have : wcwidthC ' ' = 1 := by decide
    rw [this]
    push_cast
    ring

theorem truncEnd_le : ∀ (s : List Char) (maxW w : Int), w ≤ maxW →
    w + wcswidthL (truncEndGo maxW w s) ≤ maxW := by
  intro s
  induction s with
  | nil =>
    intro maxW w h
    simpa [truncEndGo, wcswidthL] using h
  | cons c rest ih =>
    intro maxW w h
    unfold truncEndGo
    split_ifs with hc
    · simpa [wcswidthL] using h
    · push_neg at hc
      have h2 := ih maxW (w + wcwidthC c) hc
      show w + (wcwidthC c + wcswidthL (truncEndGo maxW (w + wcwidthC c) rest)) ≤ maxW
      omega

theorem truncEnd_nil_of_le (s : List Char) (maxW w : Int) (h : maxW ≤ w) :
    truncEndGo maxW w s = [] := by
  cases s with
  | nil => rfl
  | cons c rest =>
    unfold truncEndGo
    have := wcwidthC_ge_one c
    rw [if_pos (by omega)]

theorem truncEnd_ascii_exact : ∀ (s : List Char) (maxW w : Int),
    (∀ c ∈ s, wcwidthC c = 1) → w ≤ maxW → maxW ≤ w + wcswidthL s →
    w + wcswidthL (truncEndGo maxW w s) = maxW := by
  intro s
  induction s with
  | nil =>
    intro maxW w _ h1 h2
    simp only [wcswidthL, List.foldr_nil] at h2 ⊢
    simp only [truncEndGo, wcswidthL, List.foldr_nil]
    omega
  | cons c rest ih =>
    intro maxW w hall h1 h2
    have hc1 : wcwidthC c = 1 := hall c (by simp)
    have hrest : ∀ x ∈ rest, wcwidthC x = 1 := fun x hx => hall x (by simp [hx])
    have hsplit : wcswidthL (c :: rest) = wcwidthC c + wcswidthL rest := rfl
    unfold truncEndGo
    split_ifs with hcond
    · show w + wcswidthL [] = maxW
      simp only [wcswidthL, List.foldr_nil]
      omega
    · push_neg at hcond
      have h3 := ih maxW (w + wcwidthC c) hrest hcond (by omega)
      show w + (wcwidthC c + wcswidthL (truncEndGo maxW (w + wcwidthC c) rest)) = maxW
      omega

theorem middle_le (s : List Char) (maxW : Int) (hmax : 0 ≤ maxW) :
    wcswidthL (truncate_str_middle s maxW) ≤ maxW + 3 := by
  simp only [truncate_str_middle, truncate_str_end]
  split_ifs with hfit
  · omega
  · have hfd : Int.fdiv maxW 2 = maxW / 2 := Int.fdiv_eq_ediv maxW (by norm_num)
    have hdots : wcswidthL ['.', '.', '.'] = 3 := by decide
    by_cases hh : 0 ≤ Int.fdiv maxW 2 - 1
    · have h1 := truncEnd_le s (Int.fdiv maxW 2 - 1) 0 hh
      have h2 := truncEnd_le s.reverse (Int.fdiv maxW 2 - 1) 0 hh
      rw [wcswidthL_append, wcswidthL_append, hdots, wcswidthL_reverse]
      rw [hfd] at h1 h2 ⊢
      omega
    · push_neg at hh
      rw [truncEnd_nil_of_le s _ 0 (by omega),
        truncEnd_nil_of_le s.reverse _ 0 (by omega)]
      simp only [List.reverse_nil, List.nil_append, List.append_nil]
      rw [hdots]
      omega

theorem currentSep_ascii : ∀ c ∈ currentSep, wcwidthC c = 1 := by decide

theorem render_core (message pathText : List Char) (tw : Int)
    (hmsg_ascii : ∀ c ∈ message, wcwidthC c = 1) (htw : 0 ≤ tw)
    (hcond : wcswidthL message > tw ∨ wcswidthL message + 3 ≤ tw ∨
      wcswidthL message + wcswidthL pathText ≤ tw) :
    wcswidthL
      (if wcswidthL message > tw then truncate_str_end message tw
       else if wcswidthL message + wcswidthL pathText > tw then
         (message ++ truncate_str_middle pathText (tw - wcswidthL message - 3)) ++
           List.replicate (tw - (wcswidthL message +
             wcswidthL (truncate_str_middle pathText
               (tw - wcswidthL message - 3)))).toNat ' '
       else (message ++ pathText) ++
         List.replicate (tw - (wcswidthL message + wcswidthL pathText)).toNat ' ') =
      tw := by
  split_ifs with h1 h2
  · have hex := truncEnd_ascii_exact message tw 0 hmsg_ascii htw (by omega)
    show wcswidthL (truncEndGo tw 0 message) = tw
    omega
  · push_neg at h1
    have hm3 : wcswidthL message + 3 ≤ tw := by
      rcases hcond with h | h | h
      · omega
      · exact h
      · omega
    have hpt := middle_le pathText (tw - wcswidthL message - 3) (by omega)
    rw [wcswidthL_append, wcswidthL_append, wcswidthL_replicate_space,
      Int.toNat_of_nonneg (by omega)]
    omega
  · push_neg at h1 h2
    rw [wcswidthL_append, wcswidthL_append, wcswidthL_replicate_space,
      Int.toNat_of_nonneg (by omega)]
    omega

/-- Claim C9, amended for the narrow-prefix anomaly shown by
`c9_counterexample`: provided the prefix alone already overflows (it is then
end-truncated to exactly the terminal width), or no truncation is needed,
or the prefix leaves at least 3 columns for the middle-truncated path, the
rendered line's on-screen width (wide-character aware) is exactly the
terminal width; when the path overflows into a prefix that leaves fewer
than 3 columns, the line can exceed the terminal width by up to 3 columns
(the `...` placeholder). -/
theorem c9_width_amended (stats pathText : List Char) (tw : Int)
    (hascii : ∀ c ∈ stats, wcwidthC c = 1) (htw : 0 ≤ tw)
    (hcond :
      wcswidthL (if pathText.isEmpty then stats else stats ++ currentSep) > tw ∨
      wcswidthL (if pathText.isEmpty then stats else stats ++ currentSep) + 3 ≤ tw ∨
      wcswidthL (if pathText.isEmpty then stats else stats ++ currentSep) +
        wcswidthL pathText ≤ tw) :
    wcswidthL (print_progress_inplace stats pathText tw) = tw := by
  have hmsg_ascii : ∀ c ∈ (if pathText.isEmpty then stats else stats ++ currentSep),
      wcwidthC c = 1 := by
    split_ifs
    · exact hascii
    · intro c hc
      rcases List.mem_append.1 hc with h | h
      · exact hascii c h
      · exact currentSep_ascii c h
  exact render_core (if pathText.isEmpty then stats else stats ++ currentSep)
    pathText tw hmsg_ascii htw hcond

/-- Witness for the amended C9: a wide-character (CJK) path overflowing a
20-column terminal next to a 4-column ASCII prefix renders to exactly 20
columns. -/
theorem c9_witness :
    wcswidthL (print_progress_inplace ("aaaa".toList) ("中中中中".toList) 20) = 20 :=
  c9_width_amended ("aaaa".toList) ("中中中中".toList) 20 (by decide) (by decide)
    (Or.inr (Or.inl (by decide)))

set_option maxRecDepth 8000 in
/-- Counterexample to C9 as stated: with the 72-column zero-counter prefix,
a 3-character path and an 83-column terminal, the combined width overflows
while the prefix leaves no room, `truncate_str_middle` is called with
max width −3 and still emits `...`, and the rendered line is 86 columns
wide — wider than the terminal. -/
theorem c9_counterexample :
    wcswidthL (print_progress_inplace statsCex ("abc".toList) 83) = 86 ∧
    (86 : Int) > 83 := by
  constructor
  · decide
  · decide

end ParallelFiles
